import Mathlib

/-!
Verification of `jix/minimal_models_example` (`src/main.rs`).

The program reads clauses (lines of signed integers terminated by `0`) and, on an
empty line, asks `pos_solver` (the Conjunctive Oracle) for a full model, shrinks it
into an irreducible implicant using `neg_solver` (the Falsification Encoder's oracle)
and a deletion loop guided by failed-assumption cores, reports both models, and adds a
blocking clause.

We shallowly embed the program here.  The external SAT library (`cryptominisat`) is
out of scope and is modelled as an abstract oracle: a function producing either a
satisfying assignment or a conflict (the clause of negated failed assumptions, which
is what `Solver::get_conflict` returns).  Theorems take the contract of spec section 6
as hypotheses.  `Lbool::Undef` answers are excluded by the two-valued oracle result
types (the code treats `Undef` as `unreachable!()`, a contract violation of the
oracle).  `Solver::new_var` bookkeeping (capacity declaration, a no-op semantically)
and the diagnostic `solving m/n` progress prints are not modelled.
-/

/-- Mirrors `enum VarName` in `main.rs`: the identity of an internal variable. -/
inductive VarName where
  | UserVar (v : Int)
  | Clause (n : Nat)
  | Chain (n : Nat)
deriving DecidableEq, Repr

/-- Mirrors `cryptominisat::Lit`, a variable index plus a negation flag.
`Lit::new(var, false)` is the positive literal; `!` flips the flag. -/
structure Lit where
  var : Nat
  neg : Bool
deriving DecidableEq, Repr

/-- Literal negation, mirroring `impl Not for Lit`. -/
def litNot (l : Lit) : Lit := ⟨l.var, !l.neg⟩

/-- The `u32` encoding `var << 1 | neg` that underlies `Lit`; `BTreeSet<Lit>`
iterates in increasing order of this key. -/
def litKey (l : Lit) : Nat := 2 * l.var + (if l.neg then 1 else 0)

/-- Insertion into a `BTreeSet<Lit>` kept as a list sorted by `litKey`
(duplicates are not inserted). -/
def btreeInsert (e : Lit) : List Lit → List Lit
  | [] => [e]
  | a :: t =>
    if litKey e < litKey a then e :: a :: t
    else if litKey e = litKey a then a :: t
    else a :: btreeInsert e t

/-- Evaluation of a literal under a total assignment. -/
def evalLit (A : Nat → Bool) (l : Lit) : Bool := if l.neg then !(A l.var) else A l.var

/-- Evaluation of a clause (disjunction) under a total assignment. -/
def evalClause (A : Nat → Bool) (C : List Lit) : Bool := C.any (evalLit A)

/-- A total assignment satisfies a formula (conjunction of clauses). -/
def satisfies (A : Nat → Bool) (F : List (List Lit)) : Prop :=
  ∀ C ∈ F, evalClause A C = true

/-- Boolean version of `satisfies`, for concrete evaluation. -/
def satisfiesB (A : Nat → Bool) (F : List (List Lit)) : Bool :=
  F.all (evalClause A)

/-- Every literal of the clause is true under the assignment. -/
def allTrue (A : Nat → Bool) (C : List Lit) : Bool := C.all (evalLit A)

/-- Every literal of the clause is false under the assignment (the clause is
falsified by the assignment). -/
def falsifiedBy (A : Nat → Bool) (C : List Lit) : Bool := C.all (fun l => !(evalLit A l))

/-- Mirrors `IndexSet::insert_full`: return the index of `v` if present, otherwise
append it and return the freshly allocated dense index.  (The `bool` component of the
Rust return value is discarded by the program and not modelled.) -/
def insertFull (s : List VarName) (v : VarName) : Nat × List VarName :=
  if v ∈ s then (s.indexOf v, s) else (s.length, s ++ [v])

/-- Mirrors `fn user_var_name`, with the `panic!("not a user var")` arm modelled as
`none`. -/
def userVarName (varMap : List VarName) (index : Nat) (value : Bool) : Option Int :=
  match varMap[index]? with
  | some (VarName.UserVar u) => some (if value then u else -u)
  | _ => none

/-- Position `i` of the registry holds a user variable. -/
def userIdx (varMap : List VarName) (i : Nat) : Prop :=
  ∃ u, varMap[i]? = some (VarName.UserVar u)

/-- Outcome of `neg_solver.solve_with_assumptions`: either a model, or the conflict
clause over the failed assumptions (`get_conflict` returns the negations of the
failed assumption literals). -/
inductive SolveRes where
  | sat (model : Nat → Bool)
  | unsat (conflict : List Lit)

/-- Outcome of `pos_solver.solve` (the `Undef` arm of `Lbool` is unreachable under
the oracle contract and not modelled). -/
inductive PosRes where
  | sat (model : Nat → Bool)
  | unsat

/-- Output events of the program, abstracting the `print!`/`println!` calls.
A reduced-model literal is printed through `userVarName`, whose panic is `none`. -/
inductive Out where
  | fullModel (lits : List Int)
  | reducedModel (lits : List (Option Int))
  | blockingNote
  | noClausesNote
  | unsatNote
deriving DecidableEq, Repr

/-- The mutable state of `main`: the registry `var_map`, `clause_counter`, the
`chain` literal, the clause lists held by the two solver instances, the produced
output, and whether the `break` after an unsatisfiable answer has fired.
`inds` records the indicator literal allocated for each registered clause, in
order; the program does not store this list, it is kept here only to state
per-clause indicator properties. -/
structure St where
  varMap : List VarName
  clauseCounter : Nat
  chain : Option Lit
  posClauses : List (List Lit)
  negClauses : List (List Lit)
  inds : List Lit
  output : List Out
  halted : Bool
deriving Repr

/-- The state at the top of `main`. -/
def initialSt : St := ⟨[], 0, none, [], [], [], [], false⟩

/-- Lines 149-179 of `main.rs`: add `clause` to `pos_solver`, bump
`clause_counter`, intern the clause-indicator variable, extend the chain of
binary-OR gates in `neg_solver`, and emit the indicator clauses
`(lit_i v -ind)` for each literal plus `(-lit_1 v ... v -lit_n v ind)`. -/
def encodeClause (st : St) (clause : List Lit) : St :=
  let counter := st.clauseCounter + 1
  let r1 := insertFull st.varMap (VarName.Clause counter)
  let ind : Lit := ⟨r1.1, false⟩
  let indClauses : List (List Lit) :=
    clause.map (fun l => [l, litNot ind]) ++ [clause.map litNot ++ [ind]]
  match st.chain with
  | some prevChain =>
      let r2 := insertFull r1.2 (VarName.Chain counter)
      let nextChain : Lit := ⟨r2.1, false⟩
      { st with
        varMap := r2.2
        clauseCounter := counter
        chain := some nextChain
        posClauses := st.posClauses ++ [clause]
        negClauses := st.negClauses ++
          [[litNot prevChain, nextChain], [litNot ind, nextChain],
           [ind, prevChain, litNot nextChain]] ++ indClauses
        inds := st.inds ++ [ind] }
  | none =>
      { st with
        varMap := r1.2
        clauseCounter := counter
        chain := some ind
        posClauses := st.posClauses ++ [clause]
        negClauses := st.negClauses ++ indClauses
        inds := st.inds ++ [ind] }

/-- Lines 47-59 of `main.rs`: parse one input line into a clause, interning user
variables on the way.  A token is modelled by its `str::parse::<isize>` result
(`none` is a token that does not parse); `some 0` terminates the clause and the
rest of the line is not examined, exactly as the `break` does. -/
def parseClause (varMap : List VarName) : List (Option Int) → Except Unit (List Lit × List VarName)
  | [] => Except.ok ([], varMap)
  | t :: rest =>
    match t with
    | none => Except.error ()
    | some v =>
      if v = 0 then Except.ok ([], varMap)
      else
        let r := insertFull varMap (VarName.UserVar (v.natAbs : Int))
        match parseClause r.2 rest with
        | Except.error e => Except.error e
        | Except.ok (cl, vm) => Except.ok (⟨r.1, decide (v < 0)⟩ :: cl, vm)

/-- Lines 66-76 of `main.rs`: the signed user literals of the full model, as printed. -/
def fullModelInts (varMap : List VarName) (model : Nat → Bool) : List Int :=
  varMap.enum.filterMap (fun p =>
    match p.2 with
    | VarName.UserVar u => some (if model p.1 then u else -u)
    | _ => none)

/-- Lines 66-76 of `main.rs`: the initial assumption list, one literal per user
variable, each the negation of the literal the model satisfies
(`!Lit::new(index, model[index] != True)` is the literal with negation flag equal
to the model value). -/
def initAsms (varMap : List VarName) (model : Nat → Bool) : List Lit :=
  varMap.enum.filterMap (fun p =>
    match p.2 with
    | VarName.UserVar _ => some ⟨p.1, model p.1⟩
    | _ => none)

/-- Lines 87-112 of `main.rs`: the deletion loop.  `essential` is the `BTreeSet`
(sorted by `litKey`), `assumptions` the candidate stack popped from the back.
Each round solves under `assumptions-without-candidate ++ essential`; a `sat`
answer makes the candidate essential, an `unsat` answer replaces the stack by the
negated conflict literals not already essential.  The loop runs on explicit fuel
(the Rust `while let` has none); under the failed-assumption contract fuel equal
to the initial stack length is never exhausted.  The second component counts
`solve_with_assumptions` calls. -/
def reduceLoop (oracle : List Lit → SolveRes) : Nat → List Lit → List Lit → List Lit × Nat
  | 0, essential, _ => (essential, 0)
  | fuel + 1, essential, assumptions =>
    match assumptions.getLast? with
    | none => (essential, 0)
    | some candidate =>
      let rest := assumptions.dropLast
      match oracle (rest ++ essential) with
      | SolveRes.sat _ =>
          let r := reduceLoop oracle fuel (btreeInsert candidate essential) rest
          (r.1, r.2 + 1)
      | SolveRes.unsat conflict =>
          let newAsms := (conflict.map litNot).filter (fun l => decide (l ∉ essential))
          let r := reduceLoop oracle fuel essential newAsms
          (r.1, r.2 + 1)

/-- One iteration of the `for line in stdin` loop (lines 44-180), for a state that
has not hit the `break`: parse the line; on the solve sentinel (no literals) ask
`pos_solver`, and if satisfiable print the full model and, when a chain literal
exists, run the reduction, print the reduced model and turn `clause` into the
blocking clause; on unsatisfiable print `unsat` and stop.  Every path that does
not `break` falls through to `encodeClause` with the current `clause` - including
the `no clauses` path, whose clause is still empty. -/
def processLine (o1 : List (List Lit) → PosRes) (o2 : List (List Lit) → List Lit → SolveRes)
    (st : St) (tokens : List (Option Int)) : Except Unit St :=
  match parseClause st.varMap tokens with
  | Except.error e => Except.error e
  | Except.ok (clause, vm) =>
    let st := { st with varMap := vm }
    if clause.isEmpty then
      match o1 st.posClauses with
      | PosRes.sat model =>
        let st := { st with output := st.output ++ [Out.fullModel (fullModelInts vm model)] }
        match st.chain with
        | some chain =>
          let asms := initAsms vm model
          let r := reduceLoop (o2 st.negClauses) asms.length [chain] asms
          let reduced := r.1.erase chain
          let st := { st with output := st.output ++
            [Out.reducedModel (reduced.map (fun l => userVarName vm l.var (model l.var))),
             Out.blockingNote] }
          Except.ok (encodeClause st reduced)
        | none =>
          let st := { st with output := st.output ++ [Out.noClausesNote] }
          Except.ok (encodeClause st [])
      | PosRes.unsat =>
        Except.ok { st with output := st.output ++ [Out.unsatNote], halted := true }
    else
      Except.ok (encodeClause st clause)

/-- The whole `for line in stdin.lock().lines()` loop: once `halted` (the `break`
after an unsatisfiable answer), the remaining lines are not read at all. -/
def runProgram (o1 : List (List Lit) → PosRes) (o2 : List (List Lit) → List Lit → SolveRes) :
    St → List (List (Option Int)) → Except Unit St
  | st, [] => Except.ok st
  | st, line :: rest =>
    if st.halted then Except.ok st
    else
      match processLine o1 o2 st line with
      | Except.error e => Except.error e
      | Except.ok st' => runProgram o1 o2 st' rest

/-- Feeding a sequence of clauses straight into the encoder, starting from a given
registry (spec section 4.2 in isolation). -/
def feedClauses (varMap0 : List VarName) (cs : List (List Lit)) : St :=
  cs.foldl encodeClause { initialSt with varMap := varMap0 }

/-- A set of literals is an implicant of a formula: every total assignment
satisfying all the literals satisfies every clause of the formula. -/
def Implicant (F : List (List Lit)) (lits : List Lit) : Prop :=
  ∀ B : Nat → Bool, (∀ l ∈ lits, evalLit B l = true) → ∀ C ∈ F, evalClause B C = true

/-- A set of literals is locally irreducible for a formula: dropping any single
literal admits a total assignment satisfying the remaining literals yet
falsifying some clause of the formula. -/
def LocallyIrreducible (F : List (List Lit)) (lits : List Lit) : Prop :=
  ∀ e ∈ lits, ∃ B : Nat → Bool,
    (∀ x ∈ lits, x ≠ e → evalLit B x = true) ∧ ∃ C ∈ F, falsifiedBy B C = true

/-- No total assignment both satisfies the formula and makes all the given
literals true. -/
def UnsatWith (F : List (List Lit)) (S : List Lit) : Prop :=
  ∀ A : Nat → Bool, satisfies A F → ¬ (∀ l ∈ S, evalLit A l = true)

/-- All boolean lists of length `n`, enumerating candidate assignments over the
first `n` variables. -/
def allAssignments : Nat → List (List Bool)
  | 0 => [[]]
  | n + 1 => (allAssignments n).flatMap (fun L => [L ++ [false], L ++ [true]])

/-- The total assignment represented by a finite list of bits. -/
def assignOf (L : List Bool) : Nat → Bool := fun i => L.getD i false

/-- One more than the largest variable index of a clause. -/
def clauseBound (C : List Lit) : Nat := C.foldr (fun l b => max (l.var + 1) b) 0

/-- One more than the largest variable index of a formula. -/
def formulaBound (F : List (List Lit)) : Nat := F.foldr (fun C b => max (clauseBound C) b) 0

/-- Exhaustive search for an assignment over `n` variables satisfying formula and
assumptions. -/
def findAssign (n : Nat) (F : List (List Lit)) (asms : List Lit) : Option (List Bool) :=
  (allAssignments n).find? (fun L => satisfiesB (assignOf L) F && allTrue (assignOf L) asms)

/-- A reference incremental-solving oracle obeying the contract of spec section 6,
by exhaustive search: on unsatisfiability it reports the whole (deduplicated)
assumption list as failed, returned as the conflict clause of their negations. -/
def bruteNeg (F : List (List Lit)) (asms : List Lit) : SolveRes :=
  match findAssign (max (formulaBound F) (clauseBound asms)) F asms with
  | some L => SolveRes.sat (assignOf L)
  | none => SolveRes.unsat ((asms.dedup).map litNot)

/-- A reference plain-solving oracle by exhaustive search. -/
def brutePos (F : List (List Lit)) : PosRes :=
  match findAssign (formulaBound F) F [] with
  | some L => PosRes.sat (assignOf L)
  | none => PosRes.unsat

/-- Strict sortedness by `litKey`, the `BTreeSet` representation invariant. -/
def OrderedLits (l : List Lit) : Prop := List.Pairwise (fun p q => litKey p < litKey q) l
/-- The oracle contract of spec section 6 for `solve_with_assumptions` on a solver
holding formula `F`: a `sat` answer carries a model of the formula satisfying every
assumption; an `unsat` answer carries the conflict clause, whose negated literals are
a duplicate-free subset of the assumptions that no model of the formula satisfies
in full. -/
def NegOracleOk (F : List (List Lit)) (o : List Lit → SolveRes) : Prop :=
  (∀ asms A, o asms = SolveRes.sat A → satisfies A F ∧ ∀ l ∈ asms, evalLit A l = true) ∧
  (∀ asms conf, o asms = SolveRes.unsat conf →
    (conf.map litNot) ⊆ asms ∧ (conf.map litNot).Nodup ∧
    ∀ A, satisfies A F → ∃ l ∈ conf.map litNot, evalLit A l = false)
/-- The invariant tying a program state to the meaning of the two solvers'
formulas: the registry is duplicate-free; `neg_solver` clauses only use interned
variables; `pos_solver` clauses only use user variables; `Clause`/`Chain` names
never exceed the counter (so the next allocation is fresh); before the first
clause both solvers are empty; the chain literal is interned and, under any
assignment satisfying `neg_solver`'s clauses, evaluates to true exactly when some
registered clause has all its literals true; each clause's indicator evaluates to
the conjunction of that clause's literals; and any assignment of the user
variables extends to a model of `neg_solver`'s clauses. -/
structure WF (st : St) : Prop where
  nodupVM : st.varMap.Nodup
  negBound : ∀ C ∈ st.negClauses, ∀ l ∈ C, l.var < st.varMap.length
  posUser : ∀ C ∈ st.posClauses, ∀ l ∈ C, userIdx st.varMap l.var
  clauseNameBound : ∀ k, VarName.Clause k ∈ st.varMap → k ≤ st.clauseCounter
  chainNameBound : ∀ k, VarName.Chain k ∈ st.varMap → k ≤ st.clauseCounter
  chainNone : st.chain = none → st.posClauses = [] ∧ st.negClauses = []
  chainLt : ∀ c, st.chain = some c → c.var < st.varMap.length
  chainSem : ∀ A, satisfies A st.negClauses → ∀ c, st.chain = some c →
    (evalLit A c = true ↔ ∃ C ∈ st.posClauses, allTrue A C = true)
  indsLen : st.inds.length = st.posClauses.length
  indsSem : ∀ A, satisfies A st.negClauses → ∀ (j : Nat) (I : Lit) (C : List Lit),
    st.inds[j]? = some I → st.posClauses[j]? = some C → evalLit A I = allTrue A C
  complete : ∀ B : Nat → Bool, ∃ A, satisfies A st.negClauses ∧
    ∀ i, userIdx st.varMap i → A i = B i
/-- The printed form of a reduced model. -/
def reducedPrints (vm : List VarName) (model : Nat → Bool) (reduced : List Lit) :
    List (Option Int) :=
  reduced.map (fun l => userVarName vm l.var (model l.var))
/-- The reduced essential set computed by one reduction round (the loop result with
the chain literal removed). -/
def roundReduced (o2 : List (List Lit) → List Lit → SolveRes) (st : St)
    (vm : List VarName) (model : Nat → Bool) (ch : Lit) : List Lit :=
  ((reduceLoop (o2 st.negClauses) (initAsms vm model).length [ch] (initAsms vm model)).1).erase ch
/-- Every literal of the list refers to a user variable and prints without hitting
the `not a user var` panic of `user_var_name`. -/
def AllUserPrints (vm : List VarName) (model : Nat → Bool) (lits : List Lit) : Prop :=
  (∀ l ∈ lits, userIdx vm l.var) ∧
  ∀ x ∈ reducedPrints vm model lits, x.isSome = true
/-- An assignment satisfies the reported form (negations) of every stored
essential literal. -/
def SatisfiesAllLits (B : Nat → Bool) (lits : List Lit) : Prop :=
  ∀ l ∈ lits, evalLit B (litNot l) = true
/-- Concrete state after feeding the clause `1 2 0`, used by witnesses. -/
def exSt : St :=
  { varMap := [VarName.UserVar 1, VarName.UserVar 2, VarName.Clause 1]
    clauseCounter := 1
    chain := some ⟨2, false⟩
    posClauses := [[⟨0, false⟩, ⟨1, false⟩]]
    negClauses := [[⟨0, false⟩, ⟨2, true⟩], [⟨1, false⟩, ⟨2, true⟩],
                   [⟨0, true⟩, ⟨1, true⟩, ⟨2, false⟩]]
    inds := [⟨2, false⟩]
    output := []
    halted := false }
/-- The full model the exhaustive-search oracle reports for `exSt`. -/
def exModel : Nat → Bool := assignOf [false, true]
/-- Concrete state after the solve sentinel following `exSt`, used by witnesses. -/
def exSt1 : St :=
  { varMap := [VarName.UserVar 1, VarName.UserVar 2, VarName.Clause 1,
               VarName.Clause 2, VarName.Chain 2]
    clauseCounter := 2
    chain := some ⟨4, false⟩
    posClauses := [[⟨0, false⟩, ⟨1, false⟩], [⟨1, true⟩]]
    negClauses := [[⟨0, false⟩, ⟨2, true⟩], [⟨1, false⟩, ⟨2, true⟩],
                   [⟨0, true⟩, ⟨1, true⟩, ⟨2, false⟩],
                   [⟨2, true⟩, ⟨4, false⟩], [⟨3, true⟩, ⟨4, false⟩],
                   [⟨3, false⟩, ⟨2, false⟩, ⟨4, true⟩],
                   [⟨1, true⟩, ⟨3, true⟩], [⟨1, false⟩, ⟨3, false⟩]]
    inds := [⟨2, false⟩, ⟨3, false⟩]
    output := [Out.fullModel [-1, 2], Out.reducedModel [some 2], Out.blockingNote]
    halted := false }

theorem litNot_litNot (l : Lit) : litNot (litNot l) = l := by
  cases l
  simp [litNot]

theorem litNot_inj {a b : Lit} (h : litNot a = litNot b) : a = b := by
  have h2 := congrArg litNot h
  simpa [litNot_litNot] using h2

theorem evalLit_litNot (A : Nat → Bool) (l : Lit) : evalLit A (litNot l) = !(evalLit A l) := by
  obtain ⟨v, n⟩ := l
  cases n <;> simp [evalLit, litNot]

theorem evalLit_flip (A : Nat → Bool) (l : Lit) : evalLit (fun i => !(A i)) l = !(evalLit A l) := by
  obtain ⟨v, n⟩ := l
  cases n <;> simp [evalLit]

theorem litKey_inj {a b : Lit} (h : litKey a = litKey b) : a = b := by
  obtain ⟨v, n⟩ := a
  obtain ⟨w, m⟩ := b
  cases n <;> cases m <;> simp_all [litKey] <;> omega

theorem mem_btreeInsert {x e : Lit} : ∀ {l : List Lit}, x ∈ btreeInsert e l ↔ x = e ∨ x ∈ l
  | [] => by simp [btreeInsert]
  | a :: t => by
    simp only [btreeInsert]
    split
    · exact List.mem_cons
    · split
      · next h1 h2 =>
        have he : e = a := litKey_inj h2
        subst he
        constructor
        · intro hx
          exact Or.inr hx
        · rintro (rfl | hx)
          · exact List.mem_cons_self _ _
          · exact hx
      · rw [List.mem_cons, List.mem_cons, mem_btreeInsert]
        tauto


theorem orderedLits_btreeInsert {e : Lit} :
    ∀ {l : List Lit}, OrderedLits l → OrderedLits (btreeInsert e l)
  | [], _ => by simp [btreeInsert, OrderedLits]
  | a :: t, h => by
    rw [OrderedLits, List.pairwise_cons] at h
    obtain ⟨ha, ht⟩ := h
    simp only [btreeInsert]
    split
    · next hlt =>
      rw [OrderedLits, List.pairwise_cons]
      refine ⟨?_, List.pairwise_cons.mpr ⟨ha, ht⟩⟩
      intro x hx
      rcases List.mem_cons.mp hx with rfl | hx
      · exact hlt
      · exact lt_trans hlt (ha x hx)
    · split
      · exact List.pairwise_cons.mpr ⟨ha, ht⟩
      · next h1 h2 =>
        have hgt : litKey a < litKey e := by omega
        rw [OrderedLits, List.pairwise_cons]
        refine ⟨?_, orderedLits_btreeInsert ht⟩
        intro x hx
        rcases mem_btreeInsert.mp hx with rfl | hx
        · exact hgt
        · exact ha x hx

theorem OrderedLits.nodup {l : List Lit} (h : OrderedLits l) : l.Nodup :=
  List.Pairwise.imp (fun hlt heq => by subst heq; exact lt_irrefl _ hlt) h

theorem satisfies_append {A : Nat → Bool} {F1 F2 : List (List Lit)} :
    satisfies A (F1 ++ F2) ↔ satisfies A F1 ∧ satisfies A F2 := by
  unfold satisfies
  exact List.forall_mem_append

theorem insertFull_of_not_mem {s : List VarName} {v : VarName} (h : v ∉ s) :
    insertFull s v = (s.length, s ++ [v]) := by
  simp [insertFull, h]

theorem insertFull_of_mem {s : List VarName} {v : VarName} (h : v ∈ s) :
    insertFull s v = (s.indexOf v, s) := by
  simp [insertFull, h]

theorem insertFull_extends (s : List VarName) (v : VarName) :
    ∃ t, (insertFull s v).2 = s ++ t := by
  by_cases h : v ∈ s
  · exact ⟨[], by simp [insertFull_of_mem h]⟩
  · exact ⟨[v], by simp [insertFull_of_not_mem h]⟩

theorem getElem?_insertFull (s : List VarName) (v : VarName) :
    ((insertFull s v).2)[(insertFull s v).1]? = some v := by
  by_cases h : v ∈ s
  · simp [insertFull_of_mem h, List.getElem?_indexOf h]
  · simp [insertFull_of_not_mem h]

theorem insertFull_nodup {s : List VarName} {v : VarName} (h : s.Nodup) :
    (insertFull s v).2.Nodup := by
  by_cases hm : v ∈ s
  · simpa [insertFull_of_mem hm] using h
  · simp [insertFull_of_not_mem hm]
    exact List.Nodup.append h (List.nodup_singleton v) (by simpa using hm)

theorem getLast?_none {α : Type} : ∀ {l : List α}, l.getLast? = none → l = [] := by
  intro l h
  cases l with
  | nil => rfl
  | cons x t =>
    rw [List.getLast?_eq_getLast (x :: t) (by simp)] at h
    exact absurd h (by simp)

theorem getLast?_decomp {α : Type} :
    ∀ {l : List α} {a : α}, l.getLast? = some a → l = l.dropLast ++ [a] := by
  intro l
  induction l with
  | nil => intro a h; simp at h
  | cons x t ih =>
    intro a h
    cases t with
    | nil =>
      simp at h
      subst h
      simp
    | cons y s =>
      rw [List.getLast?_cons_cons] at h
      have h2 := ih h
      calc x :: y :: s = x :: ((y :: s).dropLast ++ [a]) := by rw [← h2]
        _ = (x :: y :: s).dropLast ++ [a] := by simp [List.dropLast]


theorem reduceLoop_essential_grows (o : List Lit → SolveRes) :
    ∀ fuel essential asms, essential ⊆ (reduceLoop o fuel essential asms).1 := by
  intro fuel
  induction fuel with
  | zero => intro essential asms; simp [reduceLoop]
  | succ n ih =>
    intro essential asms
    simp only [reduceLoop]
    cases h : asms.getLast? with
    | none => simp
    | some cand =>
      cases ho : o (asms.dropLast ++ essential) with
      | sat A =>
        intro x hx
        exact ih (btreeInsert cand essential) asms.dropLast (mem_btreeInsert.mpr (Or.inr hx))
      | unsat conf =>
        intro x hx
        exact ih essential _ hx

theorem reduceLoop_result_subset (o : List Lit → SolveRes)
    (hsub : ∀ asms conf, o asms = SolveRes.unsat conf → (conf.map litNot) ⊆ asms) :
    ∀ fuel essential asms x, x ∈ (reduceLoop o fuel essential asms).1 →
      x ∈ essential ∨ x ∈ asms := by
  intro fuel
  induction fuel with
  | zero => intro essential asms x hx; simp [reduceLoop] at hx; exact Or.inl hx
  | succ n ih =>
    intro essential asms x hx
    simp only [reduceLoop] at hx
    cases h : asms.getLast? with
    | none => rw [h] at hx; simp at hx; exact Or.inl hx
    | some cand =>
      rw [h] at hx
      have hdec := getLast?_decomp h
      cases ho : o (asms.dropLast ++ essential) with
      | sat A =>
        rw [ho] at hx
        simp only at hx
        rcases ih _ _ _ hx with hi | hi
        · rcases mem_btreeInsert.mp hi with rfl | hi2
          · right; rw [hdec]; exact List.mem_append_right _ (by simp)
          · exact Or.inl hi2
        · right; rw [hdec]; exact List.mem_append_left _ hi
      | unsat conf =>
        rw [ho] at hx
        simp only at hx
        rcases ih _ _ _ hx with hi | hi
        · exact Or.inl hi
        · have hm := List.of_mem_filter hi
          have hmm := List.mem_of_mem_filter hi
          have hx2 := hsub _ _ ho hmm
          rcases List.mem_append.mp hx2 with h2 | h2
          · right; rw [hdec]; exact List.mem_append_left _ h2
          · exact absurd h2 (by simpa using hm)

theorem reduceLoop_unsat_invariant (F : List (List Lit)) (o : List Lit → SolveRes)
    (hc : NegOracleOk F o) :
    ∀ fuel essential asms, asms.length ≤ fuel →
      UnsatWith F (essential ++ asms) →
      UnsatWith F (reduceLoop o fuel essential asms).1 := by
  intro fuel
  induction fuel with
  | zero =>
    intro essential asms hlen hinv
    have : asms = [] := List.length_eq_zero.mp (Nat.le_zero.mp hlen)
    subst this
    simpa [reduceLoop] using hinv
  | succ n ih =>
    intro essential asms hlen hinv
    simp only [reduceLoop]
    cases h : asms.getLast? with
    | none =>
      have : asms = [] := getLast?_none h
      subst this
      simpa using hinv
    | some cand =>
      have hdec := getLast?_decomp h
      have hrlen : asms.dropLast.length ≤ n := by
        have : asms.length = asms.dropLast.length + 1 := by
          conv_lhs => rw [hdec]
          simp
        omega
      cases ho : o (asms.dropLast ++ essential) with
      | sat A =>
        simp only
        apply ih _ _ hrlen
        intro B hB hall
        refine hinv B hB ?_
        intro l hl
        rcases List.mem_append.mp hl with hl | hl
        · exact hall l (List.mem_append_left _ (mem_btreeInsert.mpr (Or.inr hl)))
        · rw [hdec] at hl
          rcases List.mem_append.mp hl with hl | hl
          · exact hall l (List.mem_append_right _ hl)
          · simp at hl
            subst hl
            exact hall l (List.mem_append_left _ (mem_btreeInsert.mpr (Or.inl rfl)))
      | unsat conf =>
        simp only
        obtain ⟨hsub, hnd, hsem⟩ := hc.2 _ _ ho
        have hsubrest : ((conf.map litNot).filter (fun l => decide (l ∉ essential))) ⊆ asms.dropLast := by
          intro x hx
          have hm1 := List.mem_of_mem_filter hx
          have hm2 := List.of_mem_filter hx
          rcases List.mem_append.mp (hsub hm1) with h2 | h2
          · exact h2
          · exact absurd h2 (by simpa using hm2)
        have hnlen : ((conf.map litNot).filter (fun l => decide (l ∉ essential))).length ≤ n := by
          have h1 := List.Subperm.length_le
            (List.subperm_of_subset (List.Nodup.filter _ hnd) hsubrest)
          omega
        apply ih _ _ hnlen
        intro B hB hall
        obtain ⟨l, hl, hlf⟩ := hsem B hB
        by_cases he : l ∈ essential
        · have := hall l (List.mem_append_left _ he)
          rw [this] at hlf
          exact absurd hlf (by simp)
        · have hlm : l ∈ (conf.map litNot).filter (fun l => decide (l ∉ essential)) :=
            List.mem_filter.mpr ⟨hl, by simpa using he⟩
          have := hall l (List.mem_append_right _ hlm)
          rw [this] at hlf
          exact absurd hlf (by simp)

theorem reduceLoop_ordered (o : List Lit → SolveRes) :
    ∀ fuel essential asms, OrderedLits essential →
      OrderedLits (reduceLoop o fuel essential asms).1 := by
  intro fuel
  induction fuel with
  | zero => intro essential asms h; simpa [reduceLoop] using h
  | succ n ih =>
    intro essential asms h
    simp only [reduceLoop]
    cases hl : asms.getLast? with
    | none => simpa using h
    | some cand =>
      cases ho : o (asms.dropLast ++ essential) with
      | sat A => exact ih _ _ (orderedLits_btreeInsert h)
      | unsat conf => exact ih _ _ h

theorem reduceLoop_call_count (o : List Lit → SolveRes)
    (hsub : ∀ asms conf, o asms = SolveRes.unsat conf →
      (conf.map litNot) ⊆ asms ∧ (conf.map litNot).Nodup) :
    ∀ fuel essential asms, asms.length ≤ fuel →
      (reduceLoop o fuel essential asms).2 ≤ asms.length := by
  intro fuel
  induction fuel with
  | zero => intro essential asms hlen; simp [reduceLoop]
  | succ n ih =>
    intro essential asms hlen
    simp only [reduceLoop]
    cases h : asms.getLast? with
    | none => simp
    | some cand =>
      have hdec := getLast?_decomp h
      have hlen1 : asms.length = asms.dropLast.length + 1 := by
        conv_lhs => rw [hdec]
        simp
      have hrlen : asms.dropLast.length ≤ n := by omega
      cases ho : o (asms.dropLast ++ essential) with
      | sat A =>
        simp only
        have := ih (btreeInsert cand essential) asms.dropLast hrlen
        omega
      | unsat conf =>
        simp only
        obtain ⟨hs, hnd⟩ := hsub _ _ ho
        have hsubrest :
            ((conf.map litNot).filter (fun l => decide (l ∉ essential))) ⊆ asms.dropLast := by
          intro x hx
          have hm1 := List.mem_of_mem_filter hx
          have hm2 := List.of_mem_filter hx
          rcases List.mem_append.mp (hs hm1) with h2 | h2
          · exact h2
          · exact absurd h2 (by simpa using hm2)
        have hnlen := List.Subperm.length_le
          (List.subperm_of_subset (List.Nodup.filter _ hnd) hsubrest)
        have := ih essential _ (le_trans hnlen hrlen)
        omega

theorem reduceLoop_essential_certificate (F : List (List Lit)) (o : List Lit → SolveRes)
    (hc : NegOracleOk F o) :
    ∀ fuel essential asms, ∀ c ∈ (reduceLoop o fuel essential asms).1, c ∉ essential →
      ∃ A, satisfies A F ∧
        (∀ x ∈ (reduceLoop o fuel essential asms).1, x ≠ c → evalLit A x = true) := by
  intro fuel
  induction fuel with
  | zero =>
    intro essential asms c hcmem hce
    simp [reduceLoop] at hcmem
    exact absurd hcmem hce
  | succ n ih =>
    intro essential asms c hcmem hce
    simp only [reduceLoop] at hcmem ⊢
    cases h : asms.getLast? with
    | none =>
      rw [h] at hcmem
      simp at hcmem
      exact absurd hcmem hce
    | some cand =>
      rw [h] at hcmem
      cases ho : o (asms.dropLast ++ essential) with
      | sat A =>
        rw [ho] at hcmem
        simp only at hcmem ⊢
        by_cases hcc : c = cand
        · subst hcc
          obtain ⟨hAF, hAasms⟩ := hc.1 _ _ ho
          refine ⟨A, hAF, ?_⟩
          intro x hx hxc
          rcases reduceLoop_result_subset o (fun a cf hu => (hc.2 a cf hu).1) _ _ _ _ hx with
            hxm | hxm
          · rcases mem_btreeInsert.mp hxm with rfl | hxm2
            · exact absurd rfl hxc
            · exact hAasms x (List.mem_append_right _ hxm2)
          · exact hAasms x (List.mem_append_left _ hxm)
        · have hce2 : c ∉ btreeInsert cand essential := by
            intro hmem
            rcases mem_btreeInsert.mp hmem with h2 | h2
            · exact hcc h2
            · exact hce h2
          exact ih _ _ c hcmem hce2
      | unsat conf =>
        rw [ho] at hcmem
        simp only at hcmem ⊢
        exact ih _ _ c hcmem hce

theorem evalClause_congr {A B : Nat → Bool} {C : List Lit}
    (h : ∀ l ∈ C, A l.var = B l.var) : evalClause A C = evalClause B C := by
  unfold evalClause
  induction C with
  | nil => rfl
  | cons x t ih =>
    simp only [List.any_cons]
    rw [ih (fun l hl => h l (List.mem_cons_of_mem _ hl))]
    unfold evalLit
    rw [h x (List.mem_cons_self _ _)]

theorem allTrue_congr {A B : Nat → Bool} {C : List Lit}
    (h : ∀ l ∈ C, A l.var = B l.var) : allTrue A C = allTrue B C := by
  unfold allTrue
  induction C with
  | nil => rfl
  | cons x t ih =>
    simp only [List.all_cons]
    rw [ih (fun l hl => h l (List.mem_cons_of_mem _ hl))]
    unfold evalLit
    rw [h x (List.mem_cons_self _ _)]

theorem satisfies_congr {A B : Nat → Bool} {F : List (List Lit)}
    (h : ∀ C ∈ F, ∀ l ∈ C, A l.var = B l.var) :
    satisfies A F ↔ satisfies B F := by
  unfold satisfies
  constructor
  · intro hs C hC
    rw [← evalClause_congr (h C hC)]
    exact hs C hC
  · intro hs C hC
    rw [evalClause_congr (h C hC)]
    exact hs C hC

/-- The indicator clauses emitted at lines 173-179 force `ind` to evaluate to the
conjunction of the clause's literals. -/
theorem indClauses_sem {A : Nat → Bool} {clause : List Lit} {ind : Lit}
    (h : satisfies A (clause.map (fun l => [l, litNot ind]) ++ [clause.map litNot ++ [ind]])) :
    evalLit A ind = allTrue A clause := by
  rw [satisfies_append] at h
  obtain ⟨hfwd, hbig⟩ := h
  cases hv : allTrue A clause with
  | true =>
    have hb := hbig (clause.map litNot ++ [ind]) (by simp)
    unfold evalClause at hb
    rw [List.any_eq_true] at hb
    obtain ⟨l, hl, hlt⟩ := hb
    rcases List.mem_append.mp hl with hl | hl
    · obtain ⟨l0, hl0, rfl⟩ := List.mem_map.mp hl
      rw [evalLit_litNot] at hlt
      have := (List.all_eq_true.mp hv) l0 hl0
      rw [this] at hlt
      simp at hlt
    · simp at hl
      subst hl
      exact hlt
  | false =>
    unfold allTrue at hv
    rw [List.all_eq_false] at hv
    obtain ⟨l, hl, hlf⟩ := hv
    have hc := hfwd [l, litNot ind] (List.mem_map.mpr ⟨l, hl, rfl⟩)
    unfold evalClause at hc
    rw [List.any_eq_true] at hc
    obtain ⟨x, hx, hxt⟩ := hc
    simp at hx
    rcases hx with rfl | rfl
    · rw [Bool.not_eq_true] at hlf
      rw [hlf] at hxt
      exact absurd hxt (by simp)
    · rw [evalLit_litNot] at hxt
      simp at hxt
      exact hxt

/-- Converse of `indClauses_sem`: if `ind` evaluates to the conjunction of the
clause's literals, the emitted indicator clauses are satisfied. -/
theorem indClauses_sat {A : Nat → Bool} {clause : List Lit} {ind : Lit}
    (hv : evalLit A ind = allTrue A clause) :
    satisfies A (clause.map (fun l => [l, litNot ind]) ++ [clause.map litNot ++ [ind]]) := by
  rw [satisfies_append]
  constructor
  · intro C hC
    obtain ⟨l, hl, rfl⟩ := List.mem_map.mp hC
    unfold evalClause
    rw [List.any_eq_true]
    cases hb : allTrue A clause with
    | true =>
      exact ⟨l, by simp, (List.all_eq_true.mp hb) l hl⟩
    | false =>
      refine ⟨litNot ind, by simp, ?_⟩
      rw [evalLit_litNot, hv, hb]
      rfl
  · intro C hC
    simp only [List.mem_singleton] at hC
    subst hC
    unfold evalClause
    rw [List.any_eq_true]
    cases hb : allTrue A clause with
    | true =>
      refine ⟨ind, by simp, ?_⟩
      rw [hv, hb]
    | false =>
      unfold allTrue at hb
      rw [List.all_eq_false] at hb
      obtain ⟨l, hl, hlf⟩ := hb
      refine ⟨litNot l, List.mem_append_left _ (List.mem_map.mpr ⟨l, hl, rfl⟩), ?_⟩
      rw [evalLit_litNot]
      simpa using hlf

/-- The three gate clauses emitted at lines 165-167 force `n` to evaluate to the
disjunction of `p` and `i`. -/
theorem gateClauses_sem {A : Nat → Bool} {p i n : Lit}
    (h : satisfies A [[litNot p, n], [litNot i, n], [i, p, litNot n]]) :
    evalLit A n = (evalLit A p || evalLit A i) := by
  have h1 := h [litNot p, n] (by simp)
  have h2 := h [litNot i, n] (by simp)
  have h3 := h [i, p, litNot n] (by simp)
  unfold evalClause at h1 h2 h3
  rw [List.any_eq_true] at h1 h2 h3
  cases hp : evalLit A p <;> cases hi : evalLit A i <;> cases hn : evalLit A n <;> simp_all [evalLit_litNot]

/-- Converse of `gateClauses_sem`. -/
theorem gateClauses_sat {A : Nat → Bool} {p i n : Lit}
    (hv : evalLit A n = (evalLit A p || evalLit A i)) :
    satisfies A [[litNot p, n], [litNot i, n], [i, p, litNot n]] := by
  intro C hC
  unfold evalClause
  rw [List.any_eq_true]
  simp only [List.mem_cons, List.not_mem_nil, or_false] at hC
  cases hp : evalLit A p <;> cases hi : evalLit A i <;>
    rcases hC with rfl | rfl | rfl <;> simp_all [evalLit_litNot]

theorem insertFull_fst_lt (s : List VarName) (v : VarName) :
    (insertFull s v).1 < (insertFull s v).2.length := by
  by_cases h : v ∈ s
  · simp only [insertFull_of_mem h]
    exact List.indexOf_lt_length.mpr h
  · simp [insertFull_of_not_mem h]

theorem getElem?_of_extend {vm t : List VarName} {i : Nat} {x : VarName}
    (h : vm[i]? = some x) : (vm ++ t)[i]? = some x := by
  have hlt : i < vm.length := (List.getElem?_eq_some.mp h).1
  rw [List.getElem?_append_left hlt]
  exact h

theorem userIdx_mono {vm t : List VarName} {i : Nat}
    (h : userIdx vm i) : userIdx (vm ++ t) i := by
  obtain ⟨u, hu⟩ := h
  exact ⟨u, getElem?_of_extend hu⟩

theorem userIdx_lt {vm : List VarName} {i : Nat} (h : userIdx vm i) : i < vm.length := by
  obtain ⟨u, hu⟩ := h
  exact (List.getElem?_eq_some.mp hu).1

/-- What `parseClause` does to the registry and the clause: the registry is only
extended, with user-variable entries, distinctness is preserved, and every literal
of the parsed clause refers to a user variable of the extended registry. -/
theorem parseClause_spec :
    ∀ (tokens : List (Option Int)) (vm : List VarName) (clause : List Lit)
      (vm' : List VarName), parseClause vm tokens = Except.ok (clause, vm') →
      (∃ t, vm' = vm ++ t ∧ ∀ x ∈ t, ∃ u, x = VarName.UserVar u) ∧
      (vm.Nodup → vm'.Nodup) ∧
      (∀ l ∈ clause, userIdx vm' l.var) := by
  intro tokens
  induction tokens with
  | nil =>
    intro vm clause vm' h
    simp only [parseClause] at h
    cases h
    exact ⟨⟨[], by simp⟩, fun h => h, by simp⟩
  | cons t rest ih =>
    intro vm clause vm' h
    cases t with
    | none => simp [parseClause] at h
    | some v =>
      simp only [parseClause] at h
      by_cases hv : v = 0
      · rw [if_pos hv] at h
        cases h
        exact ⟨⟨[], by simp⟩, fun h => h, by simp⟩
      · rw [if_neg hv] at h
        cases hrec : parseClause (insertFull vm (VarName.UserVar (v.natAbs : Int))).2 rest with
        | error e => rw [hrec] at h; exact absurd h (by simp)
        | ok p =>
          obtain ⟨cl, vmr⟩ := p
          rw [hrec] at h
          simp only at h
          cases h
          obtain ⟨⟨t1, ht1, ht1u⟩, hnd, hcl⟩ := ih _ _ _ hrec
          obtain ⟨t0, ht0⟩ := insertFull_extends vm (VarName.UserVar (v.natAbs : Int))
          refine ⟨⟨t0 ++ t1, ?_, ?_⟩, ?_, ?_⟩
          · rw [ht1, ht0, List.append_assoc]
          · intro x hx
            rcases List.mem_append.mp hx with hx | hx
            · by_cases hm : VarName.UserVar (v.natAbs : Int) ∈ vm
              · rw [insertFull_of_mem hm] at ht0
                have h2 : vm = vm ++ t0 := ht0
                have ht0e : t0 = [] := by
                  have h3 := h2.symm
                  rwa [List.append_right_eq_self] at h3
                rw [ht0e] at hx
                exact absurd hx (by simp)
              · rw [insertFull_of_not_mem hm] at ht0
                have h2 : vm ++ [VarName.UserVar (v.natAbs : Int)] = vm ++ t0 := ht0
                have ht0e : t0 = [VarName.UserVar (v.natAbs : Int)] :=
                  (List.append_cancel_left h2).symm
                rw [ht0e] at hx
                simp at hx
                exact ⟨_, hx⟩
            · exact ht1u x hx
          · intro hvm
            apply hnd
            exact insertFull_nodup hvm
          · intro l hl
            rcases List.mem_cons.mp hl with rfl | hl
            · have hg := getElem?_insertFull vm (VarName.UserVar (v.natAbs : Int))
              rw [ht1]
              exact ⟨_, getElem?_of_extend hg⟩
            · exact hcl l hl

theorem encodeClause_shape_some (st : St) (clause : List Lit) (prevChain : Lit)
    (hch : st.chain = some prevChain)
    (hfC : VarName.Clause (st.clauseCounter + 1) ∉ st.varMap)
    (hfN : VarName.Chain (st.clauseCounter + 1) ∉ st.varMap) :
    encodeClause st clause = { st with
      varMap := st.varMap ++
        [VarName.Clause (st.clauseCounter + 1), VarName.Chain (st.clauseCounter + 1)]
      clauseCounter := st.clauseCounter + 1
      chain := some ⟨st.varMap.length + 1, false⟩
      posClauses := st.posClauses ++ [clause]
      negClauses := st.negClauses ++
        [[litNot prevChain, ⟨st.varMap.length + 1, false⟩],
         [litNot ⟨st.varMap.length, false⟩, ⟨st.varMap.length + 1, false⟩],
         [⟨st.varMap.length, false⟩, prevChain, litNot ⟨st.varMap.length + 1, false⟩]] ++
        (clause.map (fun l => [l, litNot ⟨st.varMap.length, false⟩]) ++
         [clause.map litNot ++ [⟨st.varMap.length, false⟩]])
      inds := st.inds ++ [⟨st.varMap.length, false⟩] } := by
  have hfN2 : VarName.Chain (st.clauseCounter + 1) ∉
      st.varMap ++ [VarName.Clause (st.clauseCounter + 1)] := by
    intro hmem
    rcases List.mem_append.mp hmem with hmem | hmem
    · exact hfN hmem
    · simp at hmem
  unfold encodeClause
  rw [hch]
  simp only [insertFull_of_not_mem hfC, insertFull_of_not_mem hfN2]
  simp [List.append_assoc]

theorem encodeClause_shape_none (st : St) (clause : List Lit)
    (hch : st.chain = none)
    (hfC : VarName.Clause (st.clauseCounter + 1) ∉ st.varMap) :
    encodeClause st clause = { st with
      varMap := st.varMap ++ [VarName.Clause (st.clauseCounter + 1)]
      clauseCounter := st.clauseCounter + 1
      chain := some ⟨st.varMap.length, false⟩
      posClauses := st.posClauses ++ [clause]
      negClauses := st.negClauses ++
        (clause.map (fun l => [l, litNot ⟨st.varMap.length, false⟩]) ++
         [clause.map litNot ++ [⟨st.varMap.length, false⟩]])
      inds := st.inds ++ [⟨st.varMap.length, false⟩] } := by
  unfold encodeClause
  rw [hch]
  simp only [insertFull_of_not_mem hfC]


theorem WF_initial : WF initialSt := by
  refine ⟨?_, ?_, ?_, ?_, ?_, ?_, ?_, ?_, ?_, ?_, ?_⟩ <;>
    simp [initialSt, satisfies, userIdx]

theorem WF_encode_none (st : St) (clause : List Lit) (h : WF st)
    (hch : st.chain = none)
    (hcl : ∀ l ∈ clause, userIdx st.varMap l.var) :
    WF { st with
      varMap := st.varMap ++ [VarName.Clause (st.clauseCounter + 1)]
      clauseCounter := st.clauseCounter + 1
      chain := some ⟨st.varMap.length, false⟩
      posClauses := st.posClauses ++ [clause]
      negClauses := st.negClauses ++
        (clause.map (fun l => [l, litNot ⟨st.varMap.length, false⟩]) ++
         [clause.map litNot ++ [⟨st.varMap.length, false⟩]])
      inds := st.inds ++ [⟨st.varMap.length, false⟩] } := by
  have hfC : VarName.Clause (st.clauseCounter + 1) ∉ st.varMap := fun hm =>
    absurd (h.clauseNameBound _ hm) (by omega)
  have hclLt : ∀ l ∈ clause, l.var < st.varMap.length := fun l hl => userIdx_lt (hcl l hl)
  obtain ⟨hpos0, hneg0⟩ := h.chainNone hch
  have hinds0 : st.inds = [] := by
    have := h.indsLen
    rw [hpos0] at this
    exact List.length_eq_zero.mp this
  have hIndBound : ∀ C ∈ (clause.map (fun l => [l, litNot ⟨st.varMap.length, false⟩]) ++
      [clause.map litNot ++ [⟨st.varMap.length, false⟩]]),
      ∀ l ∈ C, l.var < st.varMap.length + 1 := by
    intro C hC l hl
    rcases List.mem_append.mp hC with hC | hC
    · obtain ⟨l0, hl0, rfl⟩ := List.mem_map.mp hC
      rcases List.mem_cons.mp hl with rfl | hl
      · exact Nat.lt_succ_of_lt (hclLt _ hl0)
      · simp at hl
        subst hl
        simp [litNot]
    · simp only [List.mem_singleton] at hC
      subst hC
      rcases List.mem_append.mp hl with hl | hl
      · obtain ⟨l0, hl0, rfl⟩ := List.mem_map.mp hl
        simp only [litNot]
        exact Nat.lt_succ_of_lt (hclLt _ hl0)
      · simp at hl
        subst hl
        simp
  refine ⟨?_, ?_, ?_, ?_, ?_, ?_, ?_, ?_, ?_, ?_, ?_⟩
  · rw [List.nodup_append]
    refine ⟨h.nodupVM, by simp, ?_⟩
    intro x hx hmem
    simp at hmem
    subst hmem
    exact hfC hx
  · intro C hC l hl
    simp only [List.length_append, List.length_singleton]
    rcases List.mem_append.mp hC with hC | hC
    · exact Nat.lt_succ_of_lt (h.negBound C hC l hl)
    · exact hIndBound C hC l hl
  · intro C hC l hl
    rcases List.mem_append.mp hC with hC | hC
    · exact userIdx_mono (h.posUser C hC l hl)
    · simp only [List.mem_singleton] at hC
      subst hC
      exact userIdx_mono (hcl l hl)
  · intro k hk
    show k ≤ st.clauseCounter + 1
    rcases List.mem_append.mp hk with hk | hk
    · exact Nat.le_succ_of_le (h.clauseNameBound k hk)
    · simp at hk
      omega
  · intro k hk
    show k ≤ st.clauseCounter + 1
    rcases List.mem_append.mp hk with hk | hk
    · exact Nat.le_succ_of_le (h.chainNameBound k hk)
    · simp at hk
  · intro hcontra
    exact absurd hcontra (by simp)
  · intro c hc
    simp only [Option.some.injEq] at hc
    subst hc
    simp
  · intro A hA c hc
    simp only [Option.some.injEq] at hc
    subst hc
    rw [satisfies_append] at hA
    have hv := indClauses_sem hA.2
    rw [hv, hpos0]
    constructor
    · intro ht
      exact ⟨clause, by simp, ht⟩
    · rintro ⟨C, hC, hCt⟩
      simp at hC
      subst hC
      exact hCt
  · simp [h.indsLen]
  · intro A hA j I C hI hC
    rw [satisfies_append] at hA
    rw [hinds0] at hI
    rw [hpos0] at hC
    simp only [List.nil_append] at hI hC
    cases j with
    | zero =>
      simp at hI hC
      subst hI
      subst hC
      exact indClauses_sem hA.2
    | succ n =>
      simp at hI
  · intro B
    obtain ⟨A, hA, hAg⟩ := h.complete B
    refine ⟨fun i => if i = st.varMap.length then allTrue A clause else A i, ?_, ?_⟩
    · rw [satisfies_append]
      have hlow : ∀ l : Lit, l.var < st.varMap.length →
          (fun i => if i = st.varMap.length then allTrue A clause else A i) l.var = A l.var := by
        intro l hl
        simp only
        rw [if_neg (by omega)]
      constructor
      · refine (satisfies_congr ?_).mpr hA
        intro C hC l hl
        exact hlow l (h.negBound C hC l hl)
      · apply indClauses_sat
        have h1 : evalLit (fun i => if i = st.varMap.length then allTrue A clause else A i)
            ⟨st.varMap.length, false⟩ = allTrue A clause := by
          simp [evalLit]
        rw [h1]
        symm
        apply allTrue_congr
        intro l hl
        exact hlow l (hclLt l hl)
    · intro i hui
      obtain ⟨u, hu⟩ := hui
      rcases Nat.lt_trichotomy i st.varMap.length with hi | hi | hi
      · rw [List.getElem?_append_left hi] at hu
        simp only
        rw [if_neg (by omega)]
        exact hAg i ⟨u, hu⟩
      · subst hi
        rw [List.getElem?_append_right (le_refl _)] at hu
        simp at hu
      · rw [List.getElem?_append_right (by omega)] at hu
        have : i - st.varMap.length ≥ 1 := by omega
        rw [List.getElem?_eq_none (by simpa using this)] at hu
        exact absurd hu (by simp)

theorem evalLit_of_agree {A B : Nat → Bool} {l : Lit} (h : A l.var = B l.var) :
    evalLit A l = evalLit B l := by
  unfold evalLit
  rw [h]

theorem WF_encode_some (st : St) (clause : List Lit) (prevChain : Lit) (h : WF st)
    (hch : st.chain = some prevChain)
    (hcl : ∀ l ∈ clause, userIdx st.varMap l.var) :
    WF { st with
      varMap := st.varMap ++
        [VarName.Clause (st.clauseCounter + 1), VarName.Chain (st.clauseCounter + 1)]
      clauseCounter := st.clauseCounter + 1
      chain := some ⟨st.varMap.length + 1, false⟩
      posClauses := st.posClauses ++ [clause]
      negClauses := st.negClauses ++
        [[litNot prevChain, ⟨st.varMap.length + 1, false⟩],
         [litNot ⟨st.varMap.length, false⟩, ⟨st.varMap.length + 1, false⟩],
         [⟨st.varMap.length, false⟩, prevChain, litNot ⟨st.varMap.length + 1, false⟩]] ++
        (clause.map (fun l => [l, litNot ⟨st.varMap.length, false⟩]) ++
         [clause.map litNot ++ [⟨st.varMap.length, false⟩]])
      inds := st.inds ++ [⟨st.varMap.length, false⟩] } := by
  have hfC : VarName.Clause (st.clauseCounter + 1) ∉ st.varMap := fun hm =>
    absurd (h.clauseNameBound _ hm) (by omega)
  have hclLt : ∀ l ∈ clause, l.var < st.varMap.length := fun l hl => userIdx_lt (hcl l hl)
  have hpLt : prevChain.var < st.varMap.length := h.chainLt prevChain hch
  refine ⟨?_, ?_, ?_, ?_, ?_, ?_, ?_, ?_, ?_, ?_, ?_⟩
  · rw [List.nodup_append]
    refine ⟨h.nodupVM, by simp, ?_⟩
    intro x hx hmem
    simp only [List.mem_cons, List.not_mem_nil, or_false] at hmem
    rcases hmem with rfl | rfl
    · exact hfC hx
    · exact absurd (h.chainNameBound _ hx) (by omega)
  · intro C hC l hl
    show l.var < (st.varMap ++ [VarName.Clause (st.clauseCounter + 1),
      VarName.Chain (st.clauseCounter + 1)]).length
    simp only [List.length_append, List.length_cons, List.length_nil]
    rcases List.mem_append.mp hC with hC | hC
    · rcases List.mem_append.mp hC with hC | hC
      · have := h.negBound C hC l hl
        omega
      · simp only [List.mem_cons, List.not_mem_nil, or_false] at hC
        rcases hC with rfl | rfl | rfl
        · rcases List.mem_cons.mp hl with rfl | hl
          · simp only [litNot]
            omega
          · simp at hl
            subst hl
            simp
        · rcases List.mem_cons.mp hl with rfl | hl
          · simp only [litNot]
            omega
          · simp at hl
            subst hl
            simp
        · rcases List.mem_cons.mp hl with rfl | hl
          · simp
          · rcases List.mem_cons.mp hl with rfl | hl
            · omega
            · simp at hl
              subst hl
              simp only [litNot]
              omega
    · rcases List.mem_append.mp hC with hC | hC
      · obtain ⟨l0, hl0, rfl⟩ := List.mem_map.mp hC
        rcases List.mem_cons.mp hl with rfl | hl
        · have := hclLt _ hl0
          omega
        · simp at hl
          subst hl
          simp [litNot]
      · simp only [List.mem_singleton] at hC
        subst hC
        rcases List.mem_append.mp hl with hl | hl
        · obtain ⟨l0, hl0, rfl⟩ := List.mem_map.mp hl
          simp only [litNot]
          have := hclLt _ hl0
          omega
        · simp at hl
          subst hl
          simp
  · intro C hC l hl
    rcases List.mem_append.mp hC with hC | hC
    · exact userIdx_mono (h.posUser C hC l hl)
    · simp only [List.mem_singleton] at hC
      subst hC
      exact userIdx_mono (hcl l hl)
  · intro k hk
    show k ≤ st.clauseCounter + 1
    rcases List.mem_append.mp hk with hk | hk
    · exact Nat.le_succ_of_le (h.clauseNameBound k hk)
    · simp at hk
      omega
  · intro k hk
    show k ≤ st.clauseCounter + 1
    rcases List.mem_append.mp hk with hk | hk
    · exact Nat.le_succ_of_le (h.chainNameBound k hk)
    · simp at hk
      omega
  · intro hcontra
    exact absurd hcontra (by simp)
  · intro c hc
    simp only [Option.some.injEq] at hc
    subst hc
    simp
  · intro A hA c hc
    simp only [Option.some.injEq] at hc
    subst hc
    rw [satisfies_append] at hA
    obtain ⟨hA1, hic⟩ := hA
    rw [satisfies_append] at hA1
    obtain ⟨hold, hg⟩ := hA1
    have hnc := gateClauses_sem hg
    have hind := indClauses_sem hic
    have hprev := h.chainSem A hold prevChain hch
    rw [hnc, Bool.or_eq_true, hind]
    constructor
    · rintro (hp | hcl2)
      · obtain ⟨C, hC, hCt⟩ := hprev.mp hp
        exact ⟨C, List.mem_append_left _ hC, hCt⟩
      · exact ⟨clause, List.mem_append_right _ (by simp), hcl2⟩
    · rintro ⟨C, hC, hCt⟩
      rcases List.mem_append.mp hC with hC | hC
      · exact Or.inl (hprev.mpr ⟨C, hC, hCt⟩)
      · simp at hC
        subst hC
        exact Or.inr hCt
  · simp [h.indsLen]
  · intro A hA j I C hI hC
    rw [satisfies_append] at hA
    obtain ⟨hA1, hic⟩ := hA
    rw [satisfies_append] at hA1
    obtain ⟨hold, hg⟩ := hA1
    by_cases hj : j < st.inds.length
    · rw [List.getElem?_append_left hj] at hI
      rw [List.getElem?_append_left (by rw [← h.indsLen]; exact hj)] at hC
      exact h.indsSem A hold j I C hI hC
    · by_cases hj2 : j = st.inds.length
      · subst hj2
        rw [List.getElem?_append_right (le_refl _)] at hI
        simp at hI
        rw [List.getElem?_append_right (by rw [← h.indsLen])] at hC
        rw [← h.indsLen] at hC
        simp at hC
        subst hI
        subst hC
        exact indClauses_sem hic
      · exfalso
        rw [List.getElem?_append_right (by omega)] at hI
        rw [List.getElem?_eq_none (by simp; omega)] at hI
        exact absurd hI (by simp)
  · intro B
    obtain ⟨A, hA, hAg⟩ := h.complete B
    refine ⟨fun i => if i = st.varMap.length then allTrue A clause
      else if i = st.varMap.length + 1 then (evalLit A prevChain || allTrue A clause)
      else A i, ?_, ?_⟩
    · have hagree : ∀ l : Lit, l.var < st.varMap.length →
          evalLit (fun i => if i = st.varMap.length then allTrue A clause
            else if i = st.varMap.length + 1 then (evalLit A prevChain || allTrue A clause)
            else A i) l = evalLit A l := by
        intro l hl
        apply evalLit_of_agree
        rw [if_neg (by omega), if_neg (by omega)]
      have hvind : evalLit (fun i => if i = st.varMap.length then allTrue A clause
          else if i = st.varMap.length + 1 then (evalLit A prevChain || allTrue A clause)
          else A i) ⟨st.varMap.length, false⟩ = allTrue A clause := by
        simp [evalLit]
      have hvnc : evalLit (fun i => if i = st.varMap.length then allTrue A clause
          else if i = st.varMap.length + 1 then (evalLit A prevChain || allTrue A clause)
          else A i) ⟨st.varMap.length + 1, false⟩ =
          (evalLit A prevChain || allTrue A clause) := by
        simp [evalLit]
      have hacl : allTrue (fun i => if i = st.varMap.length then allTrue A clause
          else if i = st.varMap.length + 1 then (evalLit A prevChain || allTrue A clause)
          else A i) clause = allTrue A clause := by
        apply allTrue_congr
        intro l hl
        rw [if_neg (by have := hclLt l hl; omega), if_neg (by have := hclLt l hl; omega)]
      rw [satisfies_append]
      constructor
      · rw [satisfies_append]
        constructor
        · refine (satisfies_congr ?_).mpr hA
          intro C hC l hl
          have := h.negBound C hC l hl
          rw [if_neg (by omega), if_neg (by omega)]
        · apply gateClauses_sat
          rw [hvnc, hvind, hagree prevChain hpLt]
      · apply indClauses_sat
        rw [hvind, hacl]
    · intro i hui
      obtain ⟨u, hu⟩ := hui
      have hvm2 : (st.varMap ++ [VarName.Clause (st.clauseCounter + 1),
          VarName.Chain (st.clauseCounter + 1)])[i]? = some (VarName.UserVar u) := hu
      rcases Nat.lt_trichotomy i st.varMap.length with hi | hi | hi
      · rw [List.getElem?_append_left hi] at hvm2
        simp only
        rw [if_neg (by omega), if_neg (by omega)]
        exact hAg i ⟨u, hvm2⟩
      · subst hi
        rw [List.getElem?_append_right (le_refl _)] at hvm2
        simp at hvm2
      · by_cases hi2 : i = st.varMap.length + 1
        · subst hi2
          rw [List.getElem?_append_right (by omega)] at hvm2
          have : st.varMap.length + 1 - st.varMap.length = 1 := by omega
          rw [this] at hvm2
          simp at hvm2
        · exfalso
          rw [List.getElem?_append_right (by omega)] at hvm2
          rw [List.getElem?_eq_none (by simp; omega)] at hvm2
          exact absurd hvm2 (by simp)

theorem encodeClause_WF {st : St} (h : WF st) {clause : List Lit}
    (hcl : ∀ l ∈ clause, userIdx st.varMap l.var) :
    WF (encodeClause st clause) := by
  have hfC : VarName.Clause (st.clauseCounter + 1) ∉ st.varMap := fun hm =>
    absurd (h.clauseNameBound _ hm) (by omega)
  have hfN : VarName.Chain (st.clauseCounter + 1) ∉ st.varMap := fun hm =>
    absurd (h.chainNameBound _ hm) (by omega)
  cases hch : st.chain with
  | none =>
    rw [encodeClause_shape_none st clause hch hfC]
    exact WF_encode_none st clause h hch hcl
  | some prevChain =>
    rw [encodeClause_shape_some st clause prevChain hch hfC hfN]
    exact WF_encode_some st clause prevChain h hch hcl

theorem encodeClause_posClauses (st : St) (clause : List Lit) :
    (encodeClause st clause).posClauses = st.posClauses ++ [clause] := by
  unfold encodeClause
  cases st.chain <;> rfl

theorem encodeClause_output (st : St) (clause : List Lit) :
    (encodeClause st clause).output = st.output := by
  unfold encodeClause
  cases st.chain <;> rfl

theorem encodeClause_halted (st : St) (clause : List Lit) :
    (encodeClause st clause).halted = st.halted := by
  unfold encodeClause
  cases st.chain <;> rfl

/-- The registry extension performed by `parseClause` preserves the invariant. -/
theorem WF_extend_users {st : St} (h : WF st) {t : List VarName}
    (ht : ∀ x ∈ t, ∃ u, x = VarName.UserVar u) (hnd : (st.varMap ++ t).Nodup) :
    WF { st with varMap := st.varMap ++ t } := by
  refine ⟨hnd, ?_, ?_, ?_, ?_, h.chainNone, ?_, h.chainSem, h.indsLen, h.indsSem, ?_⟩
  · intro C hC l hl
    show l.var < (st.varMap ++ t).length
    rw [List.length_append]
    exact Nat.lt_of_lt_of_le (h.negBound C hC l hl) (by omega)
  · intro C hC l hl
    exact userIdx_mono (h.posUser C hC l hl)
  · intro k hk
    rcases List.mem_append.mp hk with hk | hk
    · exact h.clauseNameBound k hk
    · obtain ⟨u, hu⟩ := ht _ hk
      exact absurd hu (by simp)
  · intro k hk
    rcases List.mem_append.mp hk with hk | hk
    · exact h.chainNameBound k hk
    · obtain ⟨u, hu⟩ := ht _ hk
      exact absurd hu (by simp)
  · intro c hc
    show c.var < (st.varMap ++ t).length
    rw [List.length_append]
    exact Nat.lt_of_lt_of_le (h.chainLt c hc) (by omega)
  · intro B
    obtain ⟨A, hA, hAg⟩ := h.complete B
    refine ⟨fun i => if i < st.varMap.length then A i else B i, ?_, ?_⟩
    · refine (satisfies_congr ?_).mpr hA
      intro C hC l hl
      rw [if_pos (h.negBound C hC l hl)]
    · intro i hui
      obtain ⟨u, hu⟩ := hui
      show (if i < st.varMap.length then A i else B i) = B i
      by_cases hi : i < st.varMap.length
      · rw [if_pos hi]
        have hu2 : (st.varMap ++ t)[i]? = some (VarName.UserVar u) := hu
        rw [List.getElem?_append_left hi] at hu2
        exact hAg i ⟨u, hu2⟩
      · rw [if_neg hi]

/-- The literals of the initial assumption list all refer to user variables. -/
theorem initAsms_userIdx {vm : List VarName} {model : Nat → Bool} :
    ∀ l ∈ initAsms vm model, userIdx vm l.var := by
  intro l hl
  unfold initAsms at hl
  obtain ⟨⟨i, x⟩, hmem, hx⟩ := List.mem_filterMap.mp hl
  cases x with
  | UserVar u =>
    simp only at hx
    cases hx
    exact ⟨u, List.mk_mem_enum_iff_getElem?.mp hmem⟩
  | Clause n => simp at hx
  | Chain n => simp at hx



theorem processLine_clause_eq (o1 : List (List Lit) → PosRes)
    (o2 : List (List Lit) → List Lit → SolveRes) (st : St) (tokens : List (Option Int))
    {clause : List Lit} {vm : List VarName}
    (hparse : parseClause st.varMap tokens = Except.ok (clause, vm))
    (hne : clause.isEmpty = false) :
    processLine o1 o2 st tokens = Except.ok (encodeClause { st with varMap := vm } clause) := by
  unfold processLine
  rw [hparse]
  simp [hne]

theorem processLine_unsat_eq (o1 : List (List Lit) → PosRes)
    (o2 : List (List Lit) → List Lit → SolveRes) (st : St) (tokens : List (Option Int))
    {vm : List VarName}
    (hparse : parseClause st.varMap tokens = Except.ok ([], vm))
    (ho1 : o1 st.posClauses = PosRes.unsat) :
    processLine o1 o2 st tokens = Except.ok { st with
      varMap := vm
      output := st.output ++ [Out.unsatNote]
      halted := true } := by
  unfold processLine
  rw [hparse]
  simp [ho1]

theorem processLine_noclauses_eq (o1 : List (List Lit) → PosRes)
    (o2 : List (List Lit) → List Lit → SolveRes) (st : St) (tokens : List (Option Int))
    {vm : List VarName} {model : Nat → Bool}
    (hparse : parseClause st.varMap tokens = Except.ok ([], vm))
    (ho1 : o1 st.posClauses = PosRes.sat model)
    (hch : st.chain = none) :
    processLine o1 o2 st tokens = Except.ok (encodeClause { st with
      varMap := vm
      output := (st.output ++ [Out.fullModel (fullModelInts vm model)]) ++
        [Out.noClausesNote] } []) := by
  unfold processLine
  rw [hparse]
  simp [ho1, hch]

theorem processLine_reduce_eq (o1 : List (List Lit) → PosRes)
    (o2 : List (List Lit) → List Lit → SolveRes) (st : St) (tokens : List (Option Int))
    {vm : List VarName} {model : Nat → Bool} {ch : Lit}
    (hparse : parseClause st.varMap tokens = Except.ok ([], vm))
    (ho1 : o1 st.posClauses = PosRes.sat model)
    (hch : st.chain = some ch) :
    processLine o1 o2 st tokens = Except.ok (encodeClause { st with
      varMap := vm
      output := (st.output ++ [Out.fullModel (fullModelInts vm model)]) ++
        [Out.reducedModel (reducedPrints vm model (roundReduced o2 st vm model ch)),
         Out.blockingNote] } (roundReduced o2 st vm model ch)) := by
  unfold processLine
  rw [hparse]
  simp [ho1, hch, roundReduced, reducedPrints]

theorem processLine_char (o1 : List (List Lit) → PosRes)
    (o2 : List (List Lit) → List Lit → SolveRes) (st : St) (tokens : List (Option Int))
    {st' : St} (hp : processLine o1 o2 st tokens = Except.ok st') :
    ∃ clause vm, parseClause st.varMap tokens = Except.ok (clause, vm) ∧
      ((clause.isEmpty = false ∧ st' = encodeClause { st with varMap := vm } clause) ∨
       (clause = [] ∧ ∃ model, o1 st.posClauses = PosRes.sat model ∧
          ((st.chain = none ∧ st' = encodeClause { st with
              varMap := vm
              output := (st.output ++ [Out.fullModel (fullModelInts vm model)]) ++
                [Out.noClausesNote] } []) ∨
           (∃ ch, st.chain = some ch ∧ st' = encodeClause { st with
              varMap := vm
              output := (st.output ++ [Out.fullModel (fullModelInts vm model)]) ++
                [Out.reducedModel (reducedPrints vm model (roundReduced o2 st vm model ch)),
                 Out.blockingNote] } (roundReduced o2 st vm model ch)))) ∨
       (clause = [] ∧ o1 st.posClauses = PosRes.unsat ∧ st' = { st with
          varMap := vm
          output := st.output ++ [Out.unsatNote]
          halted := true })) := by
  cases hparse : parseClause st.varMap tokens with
  | error e =>
    unfold processLine at hp
    rw [hparse] at hp
    exact absurd hp (by simp)
  | ok p =>
    obtain ⟨clause, vm⟩ := p
    refine ⟨clause, vm, rfl, ?_⟩
    cases hem : clause.isEmpty with
    | false =>
      rw [processLine_clause_eq o1 o2 st tokens hparse hem] at hp
      cases hp
      exact Or.inl ⟨rfl, rfl⟩
    | true =>
      have hnil : clause = [] := List.isEmpty_iff.mp hem
      subst hnil
      cases ho1 : o1 st.posClauses with
      | sat model =>
        cases hch : st.chain with
        | none =>
          rw [processLine_noclauses_eq o1 o2 st tokens hparse ho1 hch] at hp
          cases hp
          refine Or.inr (Or.inl ⟨rfl, model, rfl, Or.inl ⟨rfl, ?_⟩⟩)
          rw [hch]
        | some ch =>
          rw [processLine_reduce_eq o1 o2 st tokens hparse ho1 hch] at hp
          cases hp
          refine Or.inr (Or.inl ⟨rfl, model, rfl, Or.inr ⟨ch, rfl, ?_⟩⟩)
          rw [hch]
      | unsat =>
        rw [processLine_unsat_eq o1 o2 st tokens hparse ho1] at hp
        cases hp
        exact Or.inr (Or.inr ⟨rfl, rfl, rfl⟩)

theorem WF_set_output {st : St} (h : WF st) (out : List Out) (hb : Bool) :
    WF { st with output := out, halted := hb } :=
  ⟨h.nodupVM, h.negBound, h.posUser, h.clauseNameBound, h.chainNameBound, h.chainNone,
   h.chainLt, h.chainSem, h.indsLen, h.indsSem, h.complete⟩

theorem roundReduced_userIdx (o2 : List (List Lit) → List Lit → SolveRes) (st : St)
    (vm : List VarName) (model : Nat → Bool) (ch : Lit)
    (ho2sub : ∀ asms conf, o2 st.negClauses asms = SolveRes.unsat conf →
      (conf.map litNot) ⊆ asms) :
    ∀ l ∈ roundReduced o2 st vm model ch, userIdx vm l.var := by
  intro l hl
  unfold roundReduced at hl
  have hord : OrderedLits (reduceLoop (o2 st.negClauses) (initAsms vm model).length
      [ch] (initAsms vm model)).1 :=
    reduceLoop_ordered _ _ _ _ (by simp [OrderedLits])
  obtain ⟨hne, hmem⟩ := (List.Nodup.mem_erase_iff hord.nodup).mp hl
  rcases reduceLoop_result_subset (o2 st.negClauses) ho2sub _ _ _ _ hmem with hm | hm
  · simp at hm
    exact absurd hm hne
  · exact initAsms_userIdx l hm

theorem processLine_WF (o1 : List (List Lit) → PosRes)
    (o2 : List (List Lit) → List Lit → SolveRes)
    (ho2sub : ∀ F asms conf, o2 F asms = SolveRes.unsat conf → (conf.map litNot) ⊆ asms)
    {st st' : St} (h : WF st) {tokens : List (Option Int)}
    (hp : processLine o1 o2 st tokens = Except.ok st') : WF st' := by
  obtain ⟨clause, vm, hparse, hcase⟩ := processLine_char o1 o2 st tokens hp
  obtain ⟨⟨t, ht, htu⟩, hnd, hcl⟩ := parseClause_spec tokens st.varMap clause vm hparse
  subst ht
  have h1 : WF { st with varMap := st.varMap ++ t } :=
    WF_extend_users h htu (hnd h.nodupVM)
  rcases hcase with ⟨hne, rfl⟩ | ⟨hnil, model, ho1, hsub⟩ | ⟨hnil, ho1, rfl⟩
  · exact encodeClause_WF h1 hcl
  · rcases hsub with ⟨hch, rfl⟩ | ⟨ch, hch, rfl⟩
    · exact encodeClause_WF (WF_set_output h1 _ _) (by simp)
    · refine encodeClause_WF (WF_set_output h1 _ _) ?_
      exact roundReduced_userIdx o2 st (st.varMap ++ t) model ch
        (fun asms conf hu => ho2sub st.negClauses asms conf hu)
  · exact WF_set_output h1 _ _

theorem runProgram_WF (o1 : List (List Lit) → PosRes)
    (o2 : List (List Lit) → List Lit → SolveRes)
    (ho2sub : ∀ F asms conf, o2 F asms = SolveRes.unsat conf → (conf.map litNot) ⊆ asms) :
    ∀ (lines : List (List (Option Int))) (st st' : St), WF st →
      runProgram o1 o2 st lines = Except.ok st' → WF st' := by
  intro lines
  induction lines with
  | nil =>
    intro st st' h hr
    unfold runProgram at hr
    cases hr
    exact h
  | cons line rest ih =>
    intro st st' h hr
    unfold runProgram at hr
    by_cases hh : st.halted = true
    · rw [if_pos hh] at hr
      cases hr
      exact h
    · rw [if_neg hh] at hr
      cases hpl : processLine o1 o2 st line with
      | error e => rw [hpl] at hr; exact absurd hr (by simp)
      | ok st1 =>
        rw [hpl] at hr
        exact ih st1 st' (processLine_WF o1 o2 ho2sub h hpl) hr

theorem processLine_pos_extends (o1 : List (List Lit) → PosRes)
    (o2 : List (List Lit) → List Lit → SolveRes) (st : St) (tokens : List (Option Int))
    {st' : St} (hp : processLine o1 o2 st tokens = Except.ok st') :
    ∃ t, st'.posClauses = st.posClauses ++ t := by
  obtain ⟨clause, vm, hparse, hcase⟩ := processLine_char o1 o2 st tokens hp
  rcases hcase with ⟨hne, rfl⟩ | ⟨hnil, model, ho1, hsub⟩ | ⟨hnil, ho1, rfl⟩
  · exact ⟨[clause], encodeClause_posClauses _ _⟩
  · rcases hsub with ⟨hch, rfl⟩ | ⟨ch, hch, rfl⟩
    · exact ⟨[[]], encodeClause_posClauses _ _⟩
    · exact ⟨[roundReduced o2 st vm model ch], encodeClause_posClauses _ _⟩
  · exact ⟨[], by simp⟩

theorem runProgram_pos_extends (o1 : List (List Lit) → PosRes)
    (o2 : List (List Lit) → List Lit → SolveRes) :
    ∀ (lines : List (List (Option Int))) (st st' : St),
      runProgram o1 o2 st lines = Except.ok st' →
      ∃ t, st'.posClauses = st.posClauses ++ t := by
  intro lines
  induction lines with
  | nil =>
    intro st st' hr
    unfold runProgram at hr
    cases hr
    exact ⟨[], by simp⟩
  | cons line rest ih =>
    intro st st' hr
    unfold runProgram at hr
    by_cases hh : st.halted = true
    · rw [if_pos hh] at hr
      cases hr
      exact ⟨[], by simp⟩
    · rw [if_neg hh] at hr
      cases hpl : processLine o1 o2 st line with
      | error e => rw [hpl] at hr; exact absurd hr (by simp)
      | ok st1 =>
        rw [hpl] at hr
        obtain ⟨t1, ht1⟩ := processLine_pos_extends o1 o2 st line hpl
        obtain ⟨t2, ht2⟩ := ih st1 st' hr
        exact ⟨t1 ++ t2, by rw [ht2, ht1, List.append_assoc]⟩

theorem runProgram_halted (o1 : List (List Lit) → PosRes)
    (o2 : List (List Lit) → List Lit → SolveRes) {st : St} (h : st.halted = true)
    (lines : List (List (Option Int))) : runProgram o1 o2 st lines = Except.ok st := by
  cases lines with
  | nil => rfl
  | cons line rest =>
    unfold runProgram
    rw [if_pos h]

theorem initAsms_mem {vm : List VarName} {model : Nat → Bool} {i : Nat}
    (h : userIdx vm i) : (⟨i, model i⟩ : Lit) ∈ initAsms vm model := by
  obtain ⟨u, hu⟩ := h
  unfold initAsms
  apply List.mem_filterMap.mpr
  exact ⟨(i, VarName.UserVar u), List.mk_mem_enum_iff_getElem?.mpr hu, rfl⟩

theorem evalLit_of_flipvar {A B : Nat → Bool} {l : Lit} (h : A l.var = !(B l.var)) :
    evalLit A l = !(evalLit B l) := by
  unfold evalLit
  cases hn : l.neg <;> rw [h] <;> simp

/-- At the start of a round, no model of `neg_solver` makes the chain literal and
every negated-model literal true at once: the full model satisfies every
registered clause, and the chain literal demands some registered clause to be
all-true while the negated-model assumptions force disagreement with the model on
every user variable. -/
theorem round_initial_unsat (st : St) (h : WF st) (model : Nat → Bool)
    (hM : satisfies model st.posClauses) (ch : Lit) (hch : st.chain = some ch) :
    UnsatWith st.negClauses ([ch] ++ initAsms st.varMap model) := by
  intro A hA hall
  have hchain := (h.chainSem A hA ch hch).mp (hall ch (by simp))
  obtain ⟨C, hC, hCt⟩ := hchain
  have hMC := hM C hC
  unfold evalClause at hMC
  rw [List.any_eq_true] at hMC
  obtain ⟨l, hl, hlt⟩ := hMC
  have huser := h.posUser C hC l hl
  have hmem : (⟨l.var, model l.var⟩ : Lit) ∈ initAsms st.varMap model :=
    initAsms_mem huser
  have hLit := hall _ (List.mem_append_right _ hmem)
  have hflip : A l.var = !(model l.var) := by
    unfold evalLit at hLit
    simp only at hLit
    cases hmv : model l.var
    · rw [hmv] at hLit
      simp at hLit
      simp [hLit]
    · rw [hmv] at hLit
      simp at hLit
      simp [hLit]
  have hAl := (List.all_eq_true.mp hCt) l hl
  have := evalLit_of_flipvar (B := model) hflip
  rw [hAl, hlt] at this
  exact absurd this (by simp)

/-- Spec section 8, implicant soundness, at the level of one reduction round: the
essential literals are among the negated-model assumptions, and the model
literals on those variables form an implicant of the registered clauses. -/
theorem round_sound (st : St) (h : WF st) (model : Nat → Bool)
    (hM : satisfies model st.posClauses) (ch : Lit) (hch : st.chain = some ch)
    (o : List Lit → SolveRes) (hc : NegOracleOk st.negClauses o) :
    (((reduceLoop o (initAsms st.varMap model).length [ch]
        (initAsms st.varMap model)).1).erase ch) ⊆ initAsms st.varMap model ∧
    Implicant st.posClauses
      ((((reduceLoop o (initAsms st.varMap model).length [ch]
        (initAsms st.varMap model)).1).erase ch).map litNot) := by
  have hord : OrderedLits (reduceLoop o (initAsms st.varMap model).length [ch]
      (initAsms st.varMap model)).1 :=
    reduceLoop_ordered _ _ _ _ (by simp [OrderedLits])
  have hsubE : (((reduceLoop o (initAsms st.varMap model).length [ch]
      (initAsms st.varMap model)).1).erase ch) ⊆ initAsms st.varMap model := by
    intro e he
    obtain ⟨hne, hmem⟩ := (List.Nodup.mem_erase_iff hord.nodup).mp he
    rcases reduceLoop_result_subset o (fun a cf hu => (hc.2 a cf hu).1) _ _ _ _ hmem with
      hm | hm
    · simp at hm
      exact absurd hm hne
    · exact hm
  refine ⟨hsubE, ?_⟩
  intro B hB C0 hC0
  by_contra hno
  have hBC0 : evalClause B C0 = false := by
    cases hval : evalClause B C0
    · rfl
    · exact absurd hval hno
  obtain ⟨A, hA, hAg⟩ := h.complete (fun v => !(B v))
  have hfinal := round_initial_unsat st h model hM ch hch
  have hloop := reduceLoop_unsat_invariant st.negClauses o hc
    (initAsms st.varMap model).length [ch] (initAsms st.varMap model) (le_refl _) hfinal
  apply hloop A hA
  intro x hx
  by_cases hxc : x = ch
  · subst hxc
    apply (h.chainSem A hA x hch).mpr
    refine ⟨C0, hC0, ?_⟩
    unfold allTrue
    rw [List.all_eq_true]
    intro l hl
    have huser := h.posUser C0 hC0 l hl
    have hflip : A l.var = !(B l.var) := hAg l.var huser
    have hBl : evalLit B l = false := by
      unfold evalClause at hBC0
      rw [List.any_eq_false] at hBC0
      exact Bool.not_eq_true _ |>.mp (hBC0 l hl)
    rw [evalLit_of_flipvar hflip, hBl]
    rfl
  · have hxE : x ∈ ((reduceLoop o (initAsms st.varMap model).length [ch]
        (initAsms st.varMap model)).1).erase ch :=
      (List.Nodup.mem_erase_iff hord.nodup).mpr ⟨hxc, hx⟩
    have hxAsms := hsubE hxE
    have huser := initAsms_userIdx x hxAsms
    have hflip : A x.var = !(B x.var) := hAg x.var huser
    have hBx : evalLit B (litNot x) = true := hB (litNot x) (List.mem_map_of_mem _ hxE)
    rw [evalLit_litNot] at hBx
    have hBx2 : evalLit B x = false := by
      cases hval : evalLit B x
      · rfl
      · rw [hval] at hBx
        exact absurd hBx (by simp)
    rw [evalLit_of_flipvar hflip, hBx2]
    rfl

/-- Spec section 8, local irreducibility, at the level of one reduction round. -/
theorem round_irreducible (st : St) (h : WF st) (model : Nat → Bool)
    (ch : Lit) (hch : st.chain = some ch)
    (o : List Lit → SolveRes) (hc : NegOracleOk st.negClauses o) :
    LocallyIrreducible st.posClauses
      ((((reduceLoop o (initAsms st.varMap model).length [ch]
        (initAsms st.varMap model)).1).erase ch).map litNot) := by
  have hord : OrderedLits (reduceLoop o (initAsms st.varMap model).length [ch]
      (initAsms st.varMap model)).1 :=
    reduceLoop_ordered _ _ _ _ (by simp [OrderedLits])
  intro r hr
  obtain ⟨e, heE, rfl⟩ := List.mem_map.mp hr
  obtain ⟨hne, hmem⟩ := (List.Nodup.mem_erase_iff hord.nodup).mp heE
  have hce : e ∉ ([ch] : List Lit) := by simpa using hne
  obtain ⟨A, hAF, hAall⟩ :=
    reduceLoop_essential_certificate st.negClauses o hc _ _ _ e hmem hce
  have hchmem : ch ∈ (reduceLoop o (initAsms st.varMap model).length [ch]
      (initAsms st.varMap model)).1 :=
    reduceLoop_essential_grows o _ _ _ (by simp)
  have hchA : evalLit A ch = true := hAall ch hchmem (fun hcontra => hne hcontra.symm)
  obtain ⟨C, hC, hCt⟩ := (h.chainSem A hAF ch hch).mp hchA
  refine ⟨fun i => !(A i), ?_, C, hC, ?_⟩
  · intro x hx hxr
    obtain ⟨e2, he2E, rfl⟩ := List.mem_map.mp hx
    have he2ne : e2 ≠ e := fun hcontra => hxr (by rw [hcontra])
    obtain ⟨_, hmem2⟩ := (List.Nodup.mem_erase_iff hord.nodup).mp he2E
    have hA2 := hAall e2 hmem2 he2ne
    rw [evalLit_litNot, evalLit_flip, hA2]
    rfl
  · rw [falsifiedBy, List.all_eq_true]
    intro l hl
    have := (List.all_eq_true.mp hCt) l hl
    rw [evalLit_flip, this]
    rfl

theorem litNot_map_litNot (L : List Lit) : (L.map litNot).map litNot = L := by
  induction L with
  | nil => rfl
  | cons x t ih => simp [litNot_litNot, ih]

theorem lt_clauseBound : ∀ (C : List Lit), ∀ l ∈ C, l.var < clauseBound C := by
  intro C
  induction C with
  | nil => simp
  | cons x t ih =>
    intro l hl
    have hcons : clauseBound (x :: t) = max (x.var + 1) (clauseBound t) := rfl
    rw [hcons]
    rcases List.mem_cons.mp hl with rfl | hl
    · exact lt_of_lt_of_le (Nat.lt_succ_self _) (le_max_left _ _)
    · exact lt_of_lt_of_le (ih l hl) (le_max_right _ _)

theorem clauseBound_le_formulaBound : ∀ (F : List (List Lit)), ∀ C ∈ F,
    clauseBound C ≤ formulaBound F := by
  intro F
  induction F with
  | nil => simp
  | cons x t ih =>
    intro C hC
    have hcons : formulaBound (x :: t) = max (clauseBound x) (formulaBound t) := rfl
    rw [hcons]
    rcases List.mem_cons.mp hC with rfl | hC
    · exact le_max_left _ _
    · exact le_trans (ih C hC) (le_max_right _ _)

theorem satisfiesB_iff {A : Nat → Bool} {F : List (List Lit)} :
    satisfiesB A F = true ↔ satisfies A F := by
  simp [satisfiesB, satisfies, List.all_eq_true]

theorem allAssignments_length : ∀ (n : Nat) (L : List Bool), L ∈ allAssignments n →
    L.length = n := by
  intro n
  induction n with
  | zero => intro L hL; simp [allAssignments] at hL; simp [hL]
  | succ m ih =>
    intro L hL
    simp only [allAssignments, List.mem_flatMap] at hL
    obtain ⟨L0, hL0, hmem⟩ := hL
    have := ih L0 hL0
    simp only [List.mem_cons, List.not_mem_nil, or_false] at hmem
    rcases hmem with rfl | rfl <;> simp [this]

theorem allAssignments_complete : ∀ (n : Nat) (A : Nat → Bool),
    ∃ L ∈ allAssignments n, ∀ i < n, assignOf L i = A i := by
  intro n A
  induction n with
  | zero => exact ⟨[], by simp [allAssignments], by omega⟩
  | succ m ih =>
    obtain ⟨L, hL, hag⟩ := ih
    have hlen := allAssignments_length m L hL
    refine ⟨L ++ [A m], ?_, ?_⟩
    · simp only [allAssignments, List.mem_flatMap]
      refine ⟨L, hL, ?_⟩
      cases hAm : A m <;> simp [hAm]
    · intro i hi
      unfold assignOf
      rw [List.getD_eq_getElem?_getD]
      by_cases hilt : i < m
      · rw [List.getElem?_append_left (by omega)]
        rw [← List.getD_eq_getElem?_getD]
        exact hag i hilt
      · have : i = m := by omega
        subst this
        rw [List.getElem?_append_right (by omega)]
        simp [hlen]

theorem findAssign_some {n : Nat} {F : List (List Lit)} {asms : List Lit} {L : List Bool}
    (h : findAssign n F asms = some L) :
    satisfies (assignOf L) F ∧ ∀ l ∈ asms, evalLit (assignOf L) l = true := by
  unfold findAssign at h
  have hp := List.find?_some h
  rw [Bool.and_eq_true] at hp
  obtain ⟨h1, h2⟩ := hp
  refine ⟨satisfiesB_iff.mp h1, ?_⟩
  intro l hl
  exact (List.all_eq_true.mp h2) l hl

theorem findAssign_none {F : List (List Lit)} {asms : List Lit}
    (h : findAssign (max (formulaBound F) (clauseBound asms)) F asms = none) :
    ∀ A : Nat → Bool, satisfies A F → ∃ l ∈ asms, evalLit A l = false := by
  intro A hA
  by_contra hno
  push_neg at hno
  have hall : ∀ l ∈ asms, evalLit A l = true := by
    intro l hl
    cases hval : evalLit A l
    · exact absurd hval (hno l hl)
    · rfl
  obtain ⟨L, hL, hag⟩ := allAssignments_complete
    (max (formulaBound F) (clauseBound asms)) A
  unfold findAssign at h
  rw [List.find?_eq_none] at h
  apply h L hL
  rw [Bool.and_eq_true]
  constructor
  · rw [satisfiesB_iff]
    intro C hC
    rw [evalClause_congr (fun l hl => hag l.var
      (lt_of_lt_of_le (lt_of_lt_of_le (lt_clauseBound C l hl)
        (clauseBound_le_formulaBound F C hC)) (le_max_left _ _)))]
    exact hA C hC
  · unfold allTrue
    rw [List.all_eq_true]
    intro l hl
    rw [show evalLit (assignOf L) l = evalLit A l from
      evalLit_of_agree (hag l.var (lt_of_lt_of_le (lt_clauseBound asms l hl)
        (le_max_right _ _)))]
    exact hall l hl

/-- The exhaustive-search oracle satisfies the contract of spec section 6. -/
theorem bruteNeg_ok (F : List (List Lit)) : NegOracleOk F (bruteNeg F) := by
  constructor
  · intro asms A h
    unfold bruteNeg at h
    cases hf : findAssign (max (formulaBound F) (clauseBound asms)) F asms with
    | none => rw [hf] at h; exact absurd h (by simp)
    | some L =>
      rw [hf] at h
      simp only [SolveRes.sat.injEq] at h
      subst h
      exact findAssign_some hf
  · intro asms conf h
    unfold bruteNeg at h
    cases hf : findAssign (max (formulaBound F) (clauseBound asms)) F asms with
    | some L => rw [hf] at h; exact absurd h (by simp)
    | none =>
      rw [hf] at h
      simp only [SolveRes.unsat.injEq] at h
      subst h
      rw [litNot_map_litNot]
      refine ⟨List.dedup_subset _, List.nodup_dedup _, ?_⟩
      intro A hA
      obtain ⟨l, hl, hlf⟩ := findAssign_none hf A hA
      exact ⟨l, List.mem_dedup.mpr hl, hlf⟩

/-- A model reported by the exhaustive-search plain oracle satisfies the formula. -/
theorem brutePos_sound (F : List (List Lit)) (A : Nat → Bool)
    (h : brutePos F = PosRes.sat A) : satisfies A F := by
  unfold brutePos at h
  cases hf : findAssign (formulaBound F) F [] with
  | none => rw [hf] at h; exact absurd h (by simp)
  | some L =>
    rw [hf] at h
    simp only [PosRes.sat.injEq] at h
    subst h
    exact (findAssign_some hf).1

theorem encodeClause_varMap_extends (st : St) (clause : List Lit) :
    ∃ t, (encodeClause st clause).varMap = st.varMap ++ t := by
  unfold encodeClause
  cases st.chain with
  | none => exact insertFull_extends st.varMap _
  | some prev =>
    obtain ⟨t1, ht1⟩ := insertFull_extends st.varMap
      (VarName.Clause (st.clauseCounter + 1))
    obtain ⟨t2, ht2⟩ := insertFull_extends
      (insertFull st.varMap (VarName.Clause (st.clauseCounter + 1))).2
      (VarName.Chain (st.clauseCounter + 1))
    exact ⟨t1 ++ t2, by simp only; rw [ht2, ht1, List.append_assoc]⟩

theorem foldl_encode_spec :
    ∀ (cs : List (List Lit)) (st : St), WF st →
      (∀ C ∈ cs, ∀ l ∈ C, userIdx st.varMap l.var) →
      WF (cs.foldl encodeClause st) ∧
      (cs.foldl encodeClause st).posClauses = st.posClauses ++ cs ∧
      (cs.foldl encodeClause st).inds.length = st.inds.length + cs.length := by
  intro cs
  induction cs with
  | nil => intro st h hcs; exact ⟨h, by simp, by simp⟩
  | cons C rest ih =>
    intro st h hcs
    have hC : ∀ l ∈ C, userIdx st.varMap l.var := hcs C (by simp)
    have h1 : WF (encodeClause st C) := encodeClause_WF h hC
    obtain ⟨t, ht⟩ := encodeClause_varMap_extends st C
    have hrest : ∀ C2 ∈ rest, ∀ l ∈ C2, userIdx (encodeClause st C).varMap l.var := by
      intro C2 hC2 l hl
      rw [ht]
      exact userIdx_mono (hcs C2 (List.mem_cons_of_mem _ hC2) l hl)
    obtain ⟨hwf, hpos, hlen⟩ := ih (encodeClause st C) h1 hrest
    refine ⟨hwf, ?_, ?_⟩
    · rw [List.foldl_cons, hpos, encodeClause_posClauses, List.append_assoc]
      rfl
    · rw [List.foldl_cons, hlen]
      have : (encodeClause st C).inds.length = st.inds.length + 1 := by
        unfold encodeClause
        cases st.chain <;> simp
      rw [this]
      simp only [List.length_cons]
      omega

theorem userVarName_isSome {vm : List VarName} {i : Nat} (h : userIdx vm i) (b : Bool) :
    (userVarName vm i b).isSome = true := by
  obtain ⟨u, hu⟩ := h
  unfold userVarName
  rw [hu]
  rfl

theorem parseClause_malformed :
    ∀ (pre : List (Option Int)) (vm : List VarName) (post : List (Option Int)),
      (∀ t ∈ pre, ∃ v : Int, t = some v ∧ v ≠ 0) →
      parseClause vm (pre ++ none :: post) = Except.error () := by
  intro pre
  induction pre with
  | nil => intro vm post hpre; rfl
  | cons t rest ih =>
    intro vm post hpre
    obtain ⟨v, rfl, hv⟩ := hpre t (by simp)
    simp only [List.cons_append, parseClause]
    rw [if_neg hv]
    simp only [List.append_eq]
    rw [ih _ post (fun x hx => hpre x (List.mem_cons_of_mem _ hx))]



/-- C8: the registry's intern operation (`IndexSet::insert_full`) is idempotent
and injective: on a duplicate-free registry, interning a fresh identity allocates
the next dense index (the current length) by appending; interning it a second
time returns the same index and leaves the registry unchanged; the allocated
index maps back to the identity; distinctness is preserved (nothing is ever
removed, the old registry stays a prefix); and a different identity interned
afterwards never receives the same index. -/
theorem intern_registry_properties (s : List VarName) (v w : VarName) (h : s.Nodup)
    (hvs : v ∉ s) (hvw : v ≠ w) :
    insertFull s v = (s.length, s ++ [v]) ∧
    insertFull ((insertFull s v).2) v = ((insertFull s v).1, (insertFull s v).2) ∧
    ((insertFull s v).2)[(insertFull s v).1]? = some v ∧
    ((insertFull s v).2).Nodup ∧
    (insertFull ((insertFull s v).2) w).1 ≠ (insertFull s v).1 := by
  have hfresh := insertFull_of_not_mem hvs
  refine ⟨hfresh, ?_, getElem?_insertFull s v, insertFull_nodup h, ?_⟩
  · have hmem : v ∈ (insertFull s v).2 := by
      rw [hfresh]
      simp
    rw [insertFull_of_mem hmem, hfresh]
    simp only [Prod.mk.injEq, and_true]
    rw [List.indexOf_append_of_not_mem hvs]
    simp
  · intro heq
    have hg1 := getElem?_insertFull s v
    have hg2 := getElem?_insertFull ((insertFull s v).2) w
    obtain ⟨t, ht⟩ := insertFull_extends ((insertFull s v).2) w
    rw [heq] at hg2
    rw [ht] at hg2
    rw [getElem?_of_extend hg1] at hg2
    exact hvw (by injection hg2)

/-- C8 witness at a concrete registry. -/
theorem intern_registry_properties_witness :
    insertFull [VarName.UserVar 1] (VarName.UserVar 2) =
      (1, [VarName.UserVar 1, VarName.UserVar 2]) ∧
    insertFull ((insertFull [VarName.UserVar 1] (VarName.UserVar 2)).2)
        (VarName.UserVar 2) =
      ((insertFull [VarName.UserVar 1] (VarName.UserVar 2)).1,
       (insertFull [VarName.UserVar 1] (VarName.UserVar 2)).2) ∧
    ((insertFull [VarName.UserVar 1] (VarName.UserVar 2)).2)[(insertFull
        [VarName.UserVar 1] (VarName.UserVar 2)).1]? = some (VarName.UserVar 2) ∧
    ((insertFull [VarName.UserVar 1] (VarName.UserVar 2)).2).Nodup ∧
    (insertFull ((insertFull [VarName.UserVar 1] (VarName.UserVar 2)).2)
        (VarName.Clause 1)).1 ≠ (insertFull [VarName.UserVar 1] (VarName.UserVar 2)).1 :=
  intern_registry_properties [VarName.UserVar 1] (VarName.UserVar 2) (VarName.Clause 1)
    (by decide) (by decide) (by decide)

/-- C5: one reduction round issues at most one `solve_with_assumptions` call per
literal of the initial candidate list: each iteration pops a candidate and, when
the answer is unsatisfiable, the new candidate stack is the failed-assumption set
minus the essential literals, a duplicate-free subset of the remaining
candidates, so the stack length strictly decreases and the call count is bounded
by the initial length. -/
theorem reduction_oracle_call_bound (o : List Lit → SolveRes)
    (essential asms : List Lit) (fuel : Nat)
    (hsub : ∀ as conf, o as = SolveRes.unsat conf →
      (conf.map litNot) ⊆ as ∧ (conf.map litNot).Nodup)
    (hfuel : asms.length ≤ fuel) :
    (reduceLoop o fuel essential asms).2 ≤ asms.length :=
  reduceLoop_call_count o hsub fuel essential asms hfuel

/-- C5 witness: a concrete run with an always-unsatisfiable oracle. -/
theorem reduction_oracle_call_bound_witness :
    (reduceLoop (fun _ => SolveRes.unsat []) 1 [] [⟨0, false⟩]).2 ≤ 1 :=
  reduction_oracle_call_bound (fun _ => SolveRes.unsat []) [] [⟨0, false⟩] 1
    (fun as conf h => by
      cases h
      exact ⟨by simp, by simp⟩)
    (by decide)

/-- C10: under the failed-assumption subset contract, every literal surviving a
reduction round after the chain literal is removed comes from the initial
candidate list (the conflict-derived candidates are filtered against the
essential set, which always contains the chain literal), hence refers to a user
variable, and printing it through `user_var_name` cannot hit the
`not a user var` panic. -/
theorem reduced_model_mentions_only_user_vars
    (o2 : List (List Lit) → List Lit → SolveRes) (st : St) (vm : List VarName)
    (model : Nat → Bool) (ch : Lit)
    (ho2sub : ∀ asms conf, o2 st.negClauses asms = SolveRes.unsat conf →
      (conf.map litNot) ⊆ asms) :
    AllUserPrints vm model (roundReduced o2 st vm model ch) := by
  have huser := roundReduced_userIdx o2 st vm model ch ho2sub
  refine ⟨huser, ?_⟩
  intro x hx
  unfold reducedPrints at hx
  obtain ⟨l, hl, rfl⟩ := List.mem_map.mp hx
  exact userVarName_isSome (huser l hl) _

/-- C10 witness on a concrete round. -/
theorem reduced_model_mentions_only_user_vars_witness :
    AllUserPrints [VarName.UserVar 5] (assignOf [true])
      (roundReduced (fun _ _ => SolveRes.sat (assignOf [true, true]))
        initialSt [VarName.UserVar 5] (assignOf [true]) ⟨1, false⟩) :=
  reduced_model_mentions_only_user_vars (fun _ _ => SolveRes.sat (assignOf [true, true]))
    initialSt [VarName.UserVar 5] (assignOf [true]) ⟨1, false⟩
    (fun asms conf h => by cases h)

/-- C3, corrected: for clauses fed to the Falsification Encoder over a registry of
user variables, any total assignment satisfying the emitted constraints makes the
chain literal true exactly when some fed clause has ALL of its literals true
under the assignment (equivalently, is falsified by the complement of the
assignment), and makes each clause's indicator variable true exactly when that
clause has all its literals true.  The emitted clauses `(lit_i v -ind)` and
`(-lit_1 v ... v -lit_n v ind)` pin the indicator to the conjunction of the
literals, not to their negations; the deletion loop compensates by assuming the
negations of the model literals. -/
theorem chain_and_indicator_semantics (vm0 : List VarName)
    (hvm0 : ∀ x ∈ vm0, ∃ u, x = VarName.UserVar u) (hnd : vm0.Nodup)
    (cs : List (List Lit)) (hcs : ∀ C ∈ cs, ∀ l ∈ C, userIdx vm0 l.var)
    (_hne : ∀ C ∈ cs, C ≠ [])
    (A : Nat → Bool) (hA : satisfies A (feedClauses vm0 cs).negClauses) :
    (∀ c, (feedClauses vm0 cs).chain = some c →
      (evalLit A c = true ↔ ∃ C ∈ cs, allTrue A C = true)) ∧
    (∀ (j : Nat) (I : Lit) (C : List Lit), (feedClauses vm0 cs).inds[j]? = some I →
      cs[j]? = some C → evalLit A I = allTrue A C) := by
  have hstart : WF { initialSt with varMap := vm0 } := by
    have := WF_extend_users WF_initial (t := vm0) hvm0 (by simpa using hnd)
    simpa using this
  obtain ⟨hwf, hpos, _⟩ := foldl_encode_spec cs { initialSt with varMap := vm0 } hstart
    (by intro C hC l hl; exact hcs C hC l hl)
  have hpos2 : (feedClauses vm0 cs).posClauses = cs := by
    have h2 : (feedClauses vm0 cs).posClauses =
        ({ initialSt with varMap := vm0 } : St).posClauses ++ cs := hpos
    simpa [initialSt] using h2
  constructor
  · intro c hc
    have h3 : evalLit A c = true ↔
        ∃ C ∈ (feedClauses vm0 cs).posClauses, allTrue A C = true :=
      hwf.chainSem A hA c hc
    rwa [hpos2] at h3
  · intro j I C hI hC
    have h3 : (feedClauses vm0 cs).posClauses[j]? = some C →
        evalLit A I = allTrue A C :=
      hwf.indsSem A hA j I C hI
    apply h3
    rw [hpos2]
    exact hC

/-- C3 as stated is false on the code: with the single clause `1 0` fed to the
encoder, the all-true assignment satisfies every emitted constraint and makes the
chain literal (the clause's indicator) true, yet the clause is not falsified by
that assignment - its only literal is true. -/
theorem chain_semantics_counterexample :
    satisfiesB (assignOf [true, true])
      (feedClauses [VarName.UserVar 1] [[⟨0, false⟩]]).negClauses = true ∧
    (feedClauses [VarName.UserVar 1] [[⟨0, false⟩]]).chain = some ⟨1, false⟩ ∧
    evalLit (assignOf [true, true]) ⟨1, false⟩ = true ∧
    falsifiedBy (assignOf [true, true]) [⟨0, false⟩] = false := by
  refine ⟨?_, ?_, ?_, ?_⟩ <;> rfl

/-- C3 witness: the corrected semantics at the same concrete input. -/
theorem chain_and_indicator_semantics_witness :
    evalLit (assignOf [true, true]) ⟨1, false⟩ = true ↔
      ∃ C ∈ [[(⟨0, false⟩ : Lit)]], allTrue (assignOf [true, true]) C = true :=
  (chain_and_indicator_semantics [VarName.UserVar 1]
      (by intro x hx; simp at hx; exact ⟨1, hx⟩) (by decide)
      [[⟨0, false⟩]]
      (by
        intro C hC l hl
        simp at hC
        subst hC
        simp at hl
        subst hl
        exact ⟨1, rfl⟩)
      (by decide)
      (assignOf [true, true]) (satisfiesB_iff.mp (by rfl))).1 ⟨1, false⟩ rfl

/-- C4 is violated by the code: a single blank input line before any clause has
been registered falls through the solve branch with the still-empty `clause`
vector and reaches the unconditional `pos_solver.add_clause(&clause)`, so the
EMPTY clause is added to `pos_solver` (making it permanently unsatisfiable), the
clause counter is bumped, and an indicator variable with its unit constraint is
registered in `neg_solver` - not a no-op apart from the `no clauses` notice. -/
theorem blank_line_adds_empty_clause :
    runProgram (fun _ => PosRes.sat (assignOf [])) (fun _ _ => SolveRes.unsat [])
      initialSt [[]] =
    Except.ok { varMap := [VarName.Clause 1]
                clauseCounter := 1
                chain := some ⟨0, false⟩
                posClauses := [[]]
                negClauses := [[⟨0, false⟩]]
                inds := [⟨0, false⟩]
                output := [Out.fullModel [], Out.noClausesNote]
                halted := false } := by
  rfl

/-- C7: when `pos_solver` answers unsatisfiable on a solve sentinel, the program
prints the unsat notice and `break`s out of the input loop: the resulting state
carries the notice, both clause lists are unchanged, and all remaining input
lines - whatever they contain and whatever the oracles would answer - are never
read. -/
theorem unsat_answer_is_terminal (o1 : List (List Lit) → PosRes)
    (o2 : List (List Lit) → List Lit → SolveRes) (st : St)
    (tokens : List (Option Int)) (rest : List (List (Option Int)))
    {vm : List VarName}
    (hhalt : st.halted = false)
    (hparse : parseClause st.varMap tokens = Except.ok ([], vm))
    (ho1 : o1 st.posClauses = PosRes.unsat) :
    runProgram o1 o2 st (tokens :: rest) = Except.ok { st with
      varMap := vm
      output := st.output ++ [Out.unsatNote]
      halted := true } := by
  unfold runProgram
  rw [if_neg (by rw [hhalt]; simp)]
  rw [processLine_unsat_eq o1 o2 st tokens hparse ho1]
  exact runProgram_halted o1 o2 rfl rest

/-- C7 witness: after `unsat`, a later malformed line is not even read. -/
theorem unsat_answer_is_terminal_witness :
    runProgram (fun _ => PosRes.unsat) (fun _ _ => SolveRes.unsat [])
      initialSt ([] :: [[none]]) =
    Except.ok { initialSt with
      varMap := ([] : List VarName)
      output := ([] : List Out) ++ [Out.unsatNote]
      halted := true } :=
  unsat_answer_is_terminal (fun _ => PosRes.unsat) (fun _ _ => SolveRes.unsat [])
    initialSt [] [[none]] rfl rfl rfl

/-- C9: a token that does not parse as a signed integer is fatal: the parse error
propagates through the `?` operator, `main` returns the error immediately, and no
clause assembled from that line reaches either oracle (the run's result is the
error itself; no state survives). -/
theorem malformed_token_aborts (o1 : List (List Lit) → PosRes)
    (o2 : List (List Lit) → List Lit → SolveRes) (st : St)
    (pre post : List (Option Int)) (rest : List (List (Option Int)))
    (hhalt : st.halted = false)
    (hpre : ∀ t ∈ pre, ∃ v : Int, t = some v ∧ v ≠ 0) :
    runProgram o1 o2 st ((pre ++ none :: post) :: rest) = Except.error () := by
  unfold runProgram
  rw [if_neg (by rw [hhalt]; simp)]
  unfold processLine
  rw [parseClause_malformed pre st.varMap post hpre]

/-- C9 witness: the line `1 x 0` aborts the whole run. -/
theorem malformed_token_aborts_witness :
    runProgram brutePos bruteNeg initialSt
      (([some 1] ++ none :: [some 0]) :: [[some 2, some 0]]) = Except.error () :=
  malformed_token_aborts brutePos bruteNeg initialSt [some 1] [some 0] [[some 2, some 0]]
    rfl
    (fun t ht => by
      simp at ht
      exact ⟨1, by rw [ht], by decide⟩)




/-- C1: when the Conjunctive Oracle reports a model in a round where at least one
clause has been added (a chain literal exists), the stored essential set of the
Reduction Engine is contained in the negated-model assumption list, so the
REPORTED reduced-model literals (their negations, printed with the model's
polarity by `user_var_name`) are among the reported full model's literals; and
the reported reduced model is an implicant of every clause added so far: every
total assignment satisfying all its literals satisfies every clause of
`pos_solver`, under the oracle contract of spec section 6. -/
theorem reduction_implicant_sound (o1 : List (List Lit) → PosRes)
    (o2 : List (List Lit) → List Lit → SolveRes) (lines : List (List (Option Int)))
    (st : St) (model : Nat → Bool) (ch : Lit)
    (hrun : runProgram o1 o2 initialSt lines = Except.ok st)
    (ho1 : ∀ F A, o1 F = PosRes.sat A → satisfies A F)
    (ho2 : ∀ F, NegOracleOk F (o2 F))
    (hM : o1 st.posClauses = PosRes.sat model)
    (hch : st.chain = some ch) :
    roundReduced o2 st st.varMap model ch ⊆ initAsms st.varMap model ∧
    (roundReduced o2 st st.varMap model ch).map litNot ⊆
      (initAsms st.varMap model).map litNot ∧
    Implicant st.posClauses ((roundReduced o2 st st.varMap model ch).map litNot) := by
  have hwf : WF st := runProgram_WF o1 o2
    (fun F asms conf hu => ((ho2 F).2 asms conf hu).1) lines initialSt st WF_initial hrun
  obtain ⟨h1, h2⟩ := round_sound st hwf model (ho1 _ _ hM) ch hch (o2 st.negClauses)
    (ho2 st.negClauses)
  refine ⟨h1, ?_, h2⟩
  intro x hx
  obtain ⟨e, he, rfl⟩ := List.mem_map.mp hx
  exact List.mem_map_of_mem _ (h1 he)

/-- C1 witness: the concrete round on the single clause `1 2 0`, where the full
model is `-1 2`, the reduced model is `2`, and the blocking clause is `-2`. -/
theorem reduction_implicant_sound_witness :
    roundReduced bruteNeg exSt exSt.varMap exModel ⟨2, false⟩ ⊆
      initAsms exSt.varMap exModel ∧
    (roundReduced bruteNeg exSt exSt.varMap exModel ⟨2, false⟩).map litNot ⊆
      (initAsms exSt.varMap exModel).map litNot ∧
    Implicant exSt.posClauses
      ((roundReduced bruteNeg exSt exSt.varMap exModel ⟨2, false⟩).map litNot) :=
  reduction_implicant_sound brutePos bruteNeg [[some 1, some 2, some 0]] exSt exModel
    ⟨2, false⟩ rfl brutePos_sound (fun F => bruteNeg_ok F) rfl rfl

/-- C2: the reported reduced model is locally irreducible: for every literal of
the reported reduced model there is a total assignment that satisfies all the
other reported literals yet falsifies some clause added so far - the model the
oracle produced when that literal's candidate was found essential, with every
variable flipped.  Under the oracle contract of spec section 6. -/
theorem reduction_locally_irreducible (o1 : List (List Lit) → PosRes)
    (o2 : List (List Lit) → List Lit → SolveRes) (lines : List (List (Option Int)))
    (st : St) (model : Nat → Bool) (ch : Lit)
    (hrun : runProgram o1 o2 initialSt lines = Except.ok st)
    (ho2 : ∀ F, NegOracleOk F (o2 F))
    (hch : st.chain = some ch) :
    LocallyIrreducible st.posClauses
      ((roundReduced o2 st st.varMap model ch).map litNot) := by
  have hwf : WF st := runProgram_WF o1 o2
    (fun F asms conf hu => ((ho2 F).2 asms conf hu).1) lines initialSt st WF_initial hrun
  exact round_irreducible st hwf model ch hch (o2 st.negClauses) (ho2 st.negClauses)

/-- C2 witness on the concrete round of `exSt`. -/
theorem reduction_locally_irreducible_witness :
    LocallyIrreducible exSt.posClauses
      ((roundReduced bruteNeg exSt exSt.varMap exModel ⟨2, false⟩).map litNot) :=
  reduction_locally_irreducible brutePos bruteNeg [[some 1, some 2, some 0]] exSt exModel
    ⟨2, false⟩ rfl (fun F => bruteNeg_ok F) rfl

/-- C6: the blocking clause (the stored essential set, i.e. the negations of the
reported reduced literals) is committed to `pos_solver` in the very step that
reports the reduced model, and in any later state every assignment satisfying all
of `pos_solver`'s clauses - in particular any full model the Conjunctive Oracle
may report under its contract - fails at least one reported reduced literal. -/
theorem blocking_clause_non_recurrence (o1 : List (List Lit) → PosRes)
    (o2 : List (List Lit) → List Lit → SolveRes) (st : St)
    (tokens : List (Option Int)) (rest : List (List (Option Int)))
    (st1 st2 : St) (vm : List VarName) (model : Nat → Bool) (ch : Lit)
    (M2 : Nat → Bool)
    (hparse : parseClause st.varMap tokens = Except.ok ([], vm))
    (ho1 : o1 st.posClauses = PosRes.sat model)
    (hch : st.chain = some ch)
    (hstep : processLine o1 o2 st tokens = Except.ok st1)
    (hrun : runProgram o1 o2 st1 rest = Except.ok st2)
    (hM2 : satisfies M2 st2.posClauses) :
    roundReduced o2 st vm model ch ∈ st1.posClauses ∧
    ¬ SatisfiesAllLits M2 (roundReduced o2 st vm model ch) := by
  rw [processLine_reduce_eq o1 o2 st tokens hparse ho1 hch] at hstep
  cases hstep
  constructor
  · rw [encodeClause_posClauses]
    exact List.mem_append_right _ (by simp)
  obtain ⟨t, ht⟩ := runProgram_pos_extends o1 o2 rest _ st2 hrun
  have hmem2 : roundReduced o2 st vm model ch ∈ st2.posClauses := by
    rw [ht, encodeClause_posClauses]
    exact List.mem_append_left _ (List.mem_append_right _ (by simp))
  intro hall
  have hclause := hM2 _ hmem2
  unfold evalClause at hclause
  rw [List.any_eq_true] at hclause
  obtain ⟨l, hl, hlt⟩ := hclause
  have := hall l hl
  rw [evalLit_litNot, hlt] at this
  exact absurd this (by simp)

/-- C6 witness: the blocking clause `-2` is in the state after the round, and the
remaining model `1 -2` of the grown formula does not satisfy the reported reduced
model `2`. -/
theorem blocking_clause_non_recurrence_witness :
    roundReduced bruteNeg exSt exSt.varMap exModel ⟨2, false⟩ ∈ exSt1.posClauses ∧
    ¬ SatisfiesAllLits (assignOf [true])
      (roundReduced bruteNeg exSt exSt.varMap exModel ⟨2, false⟩) :=
  blocking_clause_non_recurrence brutePos bruteNeg exSt [] [] exSt1 exSt1
    exSt.varMap exModel ⟨2, false⟩ (assignOf [true]) rfl rfl rfl rfl rfl
    (satisfiesB_iff.mp (by rfl))
